import Mathlib

/-! # templ: document model and canonical writer

A shallow embedding of `types.go`: the source location model (`Position`, `Range`,
`Expression`), the node model (`Node`, `Attribute`, `CaseExpression`), the document aggregate
(`TemplateFile`) and the recursive writer (`Write`, `writeIndent`, `writeNodes`).

Conventions of the embedding.

* A Go `string` is a Lean `String`.
* An `io.Writer` is a state machine: one call of `Write` on a sink state gives the next state
  and the error of the call (`none` is Go's `nil`). The byte count a Go writer also returns is
  dropped, since the source discards it everywhere (`_, err := w.Write(...)`).
* A Go function returning `error` returns the sink state it left behind and an `Outcome`:
  `nil`, a non-nil `error`, or a run-time `panic` (from `strings.Repeat` on a negative count).
* `indent` is a Go `int`, embedded as an unbounded `Int`: reaching the 64-bit bound would need
  a tree nested 2^63 deep.
* A `Node` interface value is one of the seven types of the source that implement it; a nil
  interface value in a child slot is outside the model.
-/

namespace Templ

/-! ## Source location model -/

/-- Source position: `type Position struct`. -/
structure Position where
  Index : Int
  Line : Int
  Col : Int
  deriving DecidableEq, Repr

/-- The function `NewPosition`. -/
def NewPosition : Position := { Index := 0, Line := 1, Col := 0 }

/-- The function `NewPositionFromValues`. -/
def NewPositionFromValues (index line col : Int) : Position :=
  { Index := index, Line := line, Col := col }

/-- Range of text within a file: `type Range struct`. -/
structure Range where
  From : Position
  To : Position
  deriving DecidableEq, Repr

/-- The function `NewRange`. -/
def NewRange (fromPos toPos : Position) : Range := { From := fromPos, To := toPos }

/-- Expression containing Go code: `type Expression struct`. -/
structure Expression where
  Value : String
  Range : Range
  deriving DecidableEq, Repr

/-- The function `NewExpression`. -/
def NewExpression (value : String) (fromPos toPos : Position) : Expression :=
  { Value := value, Range := { From := fromPos, To := toPos } }

/-! ## Sinks and outcomes -/

/-- An `io.Writer` over sink states `σ` with errors `ε`. -/
structure Writer (σ ε : Type) where
  Write : σ → String → σ × Option ε

/-- What a call of a Go function of result type `error` ends in. -/
inductive Outcome (ε : Type) where
  | nil : Outcome ε
  | error (e : ε) : Outcome ε
  | panic : Outcome ε
  deriving DecidableEq, Repr

/-- The statement `if _, err := w.Write([]byte(p)); err != nil { return err }`, as the outcome
of the call: `nil` lets the caller go on. -/
def write {σ ε : Type} (w : Writer σ ε) (s : σ) (p : String) : σ × Outcome ε :=
  match w.Write s p with
  | (s', none) => (s', Outcome.nil)
  | (s', some e) => (s', Outcome.error e)

/-- Sequencing `if err := ...; err != nil { return err }`: the continuation runs only after a
`nil` outcome; an error or a panic ends the function with the sink as it is. -/
def andThen {σ ε : Type} (r : σ × Outcome ε) (k : σ → σ × Outcome ε) : σ × Outcome ε :=
  match r with
  | (s, Outcome.nil) => k s
  | (s, Outcome.error e) => (s, Outcome.error e)
  | (s, Outcome.panic) => (s, Outcome.panic)

/-- The text of `n` copies of `s`, one after the other. -/
def copies (s : String) : Nat → String
  | 0 => ""
  | n + 1 => s ++ copies s n

/-- Go's `strings.Repeat(s, count)`: `count` copies of `s`; it panics (`none`) on a negative
count. -/
def stringsRepeat (s : String) (count : Int) : Option String :=
  if count < 0 then none else some (copies s count.toNat)

/-- The function `writeIndent`: one write of `level` tabs, then one write of `s`. -/
def writeIndent {σ ε : Type} (w : Writer σ ε) (s : σ) (level : Int) (str : String) :
    σ × Outcome ε :=
  match stringsRepeat "\t" level with
  | none => (s, Outcome.panic)
  | some tabs => andThen (write w s tabs) (fun s1 => write w s1 str)

/-! ## Node model -/

/-- The struct `StringExpression`, as far as it is a value inside an attribute. -/
structure StringExpression where
  Expression : Expression
  deriving DecidableEq, Repr

/-- The interface `Attribute` with its two implementations. -/
inductive Attribute where
  | ConstantAttribute (Name : String) (Value : String)
  | ExpressionAttribute (Name : String) (Value : StringExpression)
  deriving DecidableEq, Repr

mutual
/-- The interface `Node` with the types that implement it. -/
inductive Node where
  | Whitespace (Value : String)
  | Element (Name : String) (Attributes : List Attribute) (Children : List Node)
  | StringExpression (Expression : Expression)
  | CallTemplateExpression (Name : Expression) (Arguments : Expression)
  | IfExpression (Expression : Expression) (Then : List Node) (Else : List Node)
  | SwitchExpression (Expression : Expression) (Cases : List CaseExpression)
      (Default : List Node)
  | ForExpression (Expression : Expression) (Children : List Node)
/-- The struct `CaseExpression`. -/
inductive CaseExpression where
  | mk (Expression : Expression) (Children : List Node)
end

/-- The struct `Package`. -/
structure Package where
  Expression : Expression
  deriving DecidableEq, Repr

/-- The struct `Import`. -/
structure Import where
  Expression : Expression
  deriving DecidableEq, Repr

/-- The struct `Template`. -/
structure Template where
  Name : Expression
  Parameters : Expression
  Children : List Node

/-- The struct `TemplateFile`. -/
structure TemplateFile where
  Package : Package
  Imports : List Import
  Templates : List Template

/-! ## Attributes -/

/-- The replacement table of Go's `html.EscapeString` (standard library `html/escape.go`,
`htmlEscaper`): the five characters it escapes; every other character stands for itself. -/
def htmlEscaper (c : Char) : String :=
  if c = '&' then "&amp;"
  else if c = '\'' then "&#39;"
  else if c = '<' then "&lt;"
  else if c = '>' then "&gt;"
  else if c = '"' then "&#34;"
  else String.singleton c

/-- The replacement loop of `html.EscapeString` over the characters of its argument. -/
def escapeChars : List Char → String
  | [] => ""
  | c :: rest => htmlEscaper c ++ escapeChars rest

/-- Go's `html.EscapeString`: every character replaced through `htmlEscaper`. -/
def htmlEscapeString (s : String) : String := escapeChars s.data

/-- The method `String` of `ConstantAttribute` and of `ExpressionAttribute`. -/
def Attribute.String : Attribute → String
  | Attribute.ConstantAttribute name value => name ++ "\"" ++ htmlEscapeString value ++ "\""
  | Attribute.ExpressionAttribute name value =>
      name ++ "\x7b%= " ++ value.Expression.Value ++ " %\x7d"

/-! ## Canonical writer -/

/-- The map `blockElements`, as the list of its keys. -/
def blockElements : List String := ["br", "hr", "div"]

/-- The method `isBlockElement`, on the element's name. -/
def isBlockElement (name : String) : Bool := blockElements.contains name

/-- The method `Package.Write`. -/
def Package.Write {σ ε : Type} (p : Package) (w : Writer σ ε) (s : σ) (indent : Int) :
    σ × Outcome ε :=
  writeIndent w s indent ("\x7b% package " ++ p.Expression.Value ++ " %\x7d")

/-- The method `Import.Write`. -/
def Import.Write {σ ε : Type} (imp : Import) (w : Writer σ ε) (s : σ) (indent : Int) :
    σ × Outcome ε :=
  writeIndent w s indent ("\x7b% import " ++ imp.Expression.Value ++ " %\x7d\n")

/-- The attribute loop of `Element.Write`: for each attribute one write of a space and one
write of its `String()`. -/
def writeAttributes {σ ε : Type} (w : Writer σ ε) (s : σ) : List Attribute → σ × Outcome ε
  | [] => (s, Outcome.nil)
  | a :: rest =>
      andThen (write w s " ") fun s1 =>
      andThen (write w s1 a.String) fun s2 =>
      writeAttributes w s2 rest

mutual
/-- The method `Write` of each node type. -/
def Node.Write {σ ε : Type} (w : Writer σ ε) (s : σ) (indent : Int) : Node → σ × Outcome ε
  | Node.Whitespace _ => (s, Outcome.nil)
  | Node.Element name attrs children =>
      andThen
        (if isBlockElement name then
          andThen (write w s "\n") fun s1 => writeIndent w s1 indent ("<" ++ name)
        else
          writeIndent w s 0 ("<" ++ name)) fun s2 =>
      andThen (writeAttributes w s2 attrs) fun s3 =>
      if children.length = 0 then
        andThen (writeIndent w s3 indent "/>") fun s4 =>
        if isBlockElement name then write w s4 "\n" else (s4, Outcome.nil)
      else
        andThen
          (if isBlockElement name then write w s3 ">\n" else writeIndent w s3 indent ">")
          fun s4 =>
        andThen
          (writeNodes w s4 (if isBlockElement name then indent + 1 else 0) children) fun s5 =>
        andThen
          (if isBlockElement name then write w s5 "\n" else (s5, Outcome.nil)) fun s6 =>
        writeIndent w s6 (if isBlockElement name then indent + 1 - 1 else 0)
          ("</" ++ name ++ ">")
  | Node.StringExpression e => writeIndent w s indent ("\x7b%= " ++ e.Value ++ " %\x7d")
  | Node.CallTemplateExpression name args =>
      writeIndent w s indent ("\x7b% call " ++ name.Value ++ "(" ++ args.Value ++ ") %\x7d")
  | Node.IfExpression e thenNodes elseNodes =>
      andThen (writeIndent w s indent ("\x7b% if " ++ e.Value ++ " %\x7d\n")) fun s1 =>
      andThen (writeNodes w s1 (indent + 1) thenNodes) fun s2 =>
      andThen
        (if elseNodes.length > 0 then
          andThen (writeIndent w s2 (indent + 1 - 1) "\x7b% else %\x7d\n") fun s3 =>
          writeNodes w s3 (indent + 1 - 1 + 1) elseNodes
        else (s2, Outcome.nil)) fun s4 =>
      writeIndent w s4 (indent + 1 - 1) "\x7b% endif %\x7d\n"
  | Node.SwitchExpression e cases dflt =>
      andThen (writeIndent w s indent ("\x7b% switch " ++ e.Value ++ " %\x7d\n")) fun s1 =>
      andThen (writeCases w s1 (indent + 1) cases) fun s2 =>
      andThen
        (if dflt.length > 0 then
          andThen (writeIndent w s2 (indent + 1) "\x7b% default %\x7d\n") fun s3 =>
          andThen (writeNodes w s3 (indent + 1 + 1) dflt) fun s4 =>
          writeIndent w s4 (indent + 1 + 1 - 1) "\x7b% enddefault %\x7d\n"
        else (s2, Outcome.nil)) fun s5 =>
      writeIndent w s5 (indent + 1 - 1) "\x7b% endswitch %\x7d\n"
  | Node.ForExpression e children =>
      andThen (writeIndent w s indent ("\x7b% for " ++ e.Value ++ " %\x7d\n")) fun s1 =>
      andThen (writeNodes w s1 (indent + 1) children) fun s2 =>
      writeIndent w s2 (indent + 1 - 1) "\x7b% endfor %\x7d\n"
/-- The function `writeNodes`. -/
def writeNodes {σ ε : Type} (w : Writer σ ε) (s : σ) (indent : Int) :
    List Node → σ × Outcome ε
  | [] => (s, Outcome.nil)
  | c :: rest => andThen (Node.Write w s indent c) fun s1 => writeNodes w s1 indent rest
/-- The loop over `se.Cases` in `SwitchExpression.Write`; `indent` is the value the loop
starts each round with (the switch's indent plus one). -/
def writeCases {σ ε : Type} (w : Writer σ ε) (s : σ) (indent : Int) :
    List CaseExpression → σ × Outcome ε
  | [] => (s, Outcome.nil)
  | CaseExpression.mk e children :: rest =>
      andThen (writeIndent w s indent ("\x7b% case " ++ e.Value ++ " %\x7d\n")) fun s1 =>
      andThen (writeNodes w s1 (indent + 1) children) fun s2 =>
      andThen (writeIndent w s2 (indent + 1 - 1) "\x7b% endcase %\x7d\n") fun s3 =>
      writeCases w s3 (indent + 1 - 1) rest
end

/-- The method `Template.Write`. -/
def Template.Write {σ ε : Type} (t : Template) (w : Writer σ ε) (s : σ) (indent : Int) :
    σ × Outcome ε :=
  andThen (writeIndent w s indent
    ("\x7b% templ " ++ t.Name.Value ++ "(" ++ t.Parameters.Value ++ ") %\x7d\n")) fun s1 =>
  andThen (writeNodes w s1 (indent + 1) t.Children) fun s2 =>
  writeIndent w s2 indent "\x7b% endtempl %\x7d\n\n"

/-- The loop over `tf.Imports` in `TemplateFile.Write`. -/
def writeImports {σ ε : Type} (w : Writer σ ε) (s : σ) (indent : Int) :
    List Import → σ × Outcome ε
  | [] => (s, Outcome.nil)
  | imp :: rest =>
      andThen (imp.Write w s indent) fun s1 =>
      andThen (write w s1 "\n") fun s2 =>
      writeImports w s2 indent rest

/-- The loop over `tf.Templates` in `TemplateFile.Write`. -/
def writeTemplates {σ ε : Type} (w : Writer σ ε) (s : σ) (indent : Int) :
    List Template → σ × Outcome ε
  | [] => (s, Outcome.nil)
  | t :: rest =>
      andThen (t.Write w s indent) fun s1 =>
      andThen (write w s1 "\n\n") fun s2 =>
      writeTemplates w s2 indent rest

/-- The method `TemplateFile.Write`; `var indent int` is 0. -/
def TemplateFile.Write {σ ε : Type} (tf : TemplateFile) (w : Writer σ ε) (s : σ) :
    σ × Outcome ε :=
  andThen (tf.Package.Write w s 0) fun s1 =>
  andThen (write w s1 "\n\n") fun s2 =>
  andThen (writeImports w s2 0 tf.Imports) fun s3 =>
  andThen (write w s3 "\n") fun s4 =>
  writeTemplates w s4 0 tf.Templates

/-! ## Sinks used to state the claims -/

/-- A sink that never fails and keeps what it was given: Go's `bytes.Buffer`. -/
def bytesBuffer : Writer String Unit where
  Write := fun s p => (s ++ p, none)

/-! ## The sequence of sink writes of a tree

`writeAll` issues a list of writes in order and stops at the first that fails. The functions
`Node.writes`, `nodesWrites`, ... list the writes a tree asks for at a non-negative indent;
`Node.Write_eq_writeAll` below shows that `Write` on any sink is `writeAll` of that list. -/

/-- Issue the writes of a list in order; the first failing write ends the run. -/
def writeAll {σ ε : Type} (w : Writer σ ε) (s : σ) : List String → σ × Outcome ε
  | [] => (s, Outcome.nil)
  | p :: rest => andThen (write w s p) fun s1 => writeAll w s1 rest

/-- The text of `level` tabs (nothing for a negative level). -/
def tabs (level : Int) : String := copies "\t" level.toNat

/-- The text of a list of writes: what a sink that keeps everything holds after them. -/
def concat : List String → String
  | [] => ""
  | p :: rest => p ++ concat rest

/-- The two writes of `writeIndent` at a non-negative level. -/
def indentWrites (level : Int) (str : String) : List String := [tabs level, str]

/-- The writes of the attribute loop. -/
def attributesWrites : List Attribute → List String
  | [] => []
  | a :: rest => " " :: a.String :: attributesWrites rest

mutual
/-- The writes of `Node.Write` at a non-negative indent. -/
def Node.writes (indent : Int) : Node → List String
  | Node.Whitespace _ => []
  | Node.Element name attrs children =>
      (if isBlockElement name then ["\n"] ++ indentWrites indent ("<" ++ name)
        else indentWrites 0 ("<" ++ name))
      ++ (attributesWrites attrs
      ++ (if children.length = 0 then
          indentWrites indent "/>" ++ (if isBlockElement name then ["\n"] else [])
        else
          (if isBlockElement name then [">\n"] else indentWrites indent ">")
          ++ (nodesWrites (if isBlockElement name then indent + 1 else 0) children
          ++ ((if isBlockElement name then ["\n"] else [])
          ++ indentWrites (if isBlockElement name then indent else 0)
              ("</" ++ name ++ ">")))))
  | Node.StringExpression e => indentWrites indent ("\x7b%= " ++ e.Value ++ " %\x7d")
  | Node.CallTemplateExpression name args =>
      indentWrites indent ("\x7b% call " ++ name.Value ++ "(" ++ args.Value ++ ") %\x7d")
  | Node.IfExpression e thenNodes elseNodes =>
      indentWrites indent ("\x7b% if " ++ e.Value ++ " %\x7d\n")
      ++ (nodesWrites (indent + 1) thenNodes
      ++ ((if elseNodes.length > 0 then
          indentWrites indent "\x7b% else %\x7d\n" ++ nodesWrites (indent + 1) elseNodes
        else [])
      ++ indentWrites indent "\x7b% endif %\x7d\n"))
  | Node.SwitchExpression e cases dflt =>
      indentWrites indent ("\x7b% switch " ++ e.Value ++ " %\x7d\n")
      ++ (casesWrites (indent + 1) cases
      ++ ((if dflt.length > 0 then
          indentWrites (indent + 1) "\x7b% default %\x7d\n"
          ++ (nodesWrites (indent + 1 + 1) dflt
          ++ indentWrites (indent + 1) "\x7b% enddefault %\x7d\n")
        else [])
      ++ indentWrites indent "\x7b% endswitch %\x7d\n"))
  | Node.ForExpression e children =>
      indentWrites indent ("\x7b% for " ++ e.Value ++ " %\x7d\n")
      ++ (nodesWrites (indent + 1) children
      ++ indentWrites indent "\x7b% endfor %\x7d\n")
/-- The writes of `writeNodes`. -/
def nodesWrites (indent : Int) : List Node → List String
  | [] => []
  | c :: rest => Node.writes indent c ++ nodesWrites indent rest
/-- The writes of the case loop of a switch. -/
def casesWrites (indent : Int) : List CaseExpression → List String
  | [] => []
  | CaseExpression.mk e children :: rest =>
      indentWrites indent ("\x7b% case " ++ e.Value ++ " %\x7d\n")
      ++ (nodesWrites (indent + 1) children
      ++ (indentWrites indent "\x7b% endcase %\x7d\n"
      ++ casesWrites indent rest))
end

/-- The writes of `Template.Write`. -/
def Template.writes (t : Template) (indent : Int) : List String :=
  indentWrites indent ("\x7b% templ " ++ t.Name.Value ++ "(" ++ t.Parameters.Value ++ ") %\x7d\n")
  ++ (nodesWrites (indent + 1) t.Children
  ++ indentWrites indent "\x7b% endtempl %\x7d\n\n")

/-- The writes of the import loop. -/
def importsWrites (indent : Int) : List Import → List String
  | [] => []
  | imp :: rest =>
      indentWrites indent ("\x7b% import " ++ imp.Expression.Value ++ " %\x7d\n")
      ++ (["\n"] ++ importsWrites indent rest)

/-- The writes of the template loop. -/
def templatesWrites (indent : Int) : List Template → List String
  | [] => []
  | t :: rest => t.writes indent ++ (["\n\n"] ++ templatesWrites indent rest)

/-- The writes of `TemplateFile.Write`. -/
def TemplateFile.writes (tf : TemplateFile) : List String :=
  indentWrites 0 ("\x7b% package " ++ tf.Package.Expression.Value ++ " %\x7d")
  ++ (["\n\n"] ++ (importsWrites 0 tf.Imports ++ (["\n"] ++ templatesWrites 0 tf.Templates)))

/-! ## Removal of a whitespace node -/

/-- `Node.WhitespaceRemoved n n'`: the tree `n'` is `n` with one `Whitespace` node taken out
of a child list, at any depth. The first six constructors take the node out of a child list of
the root; the last six go down into a child. Where the writer tests the list for emptiness
(`Element.Children`, `IfExpression.Else`, `SwitchExpression.Default`), the list must keep at
least one node. -/
inductive Node.WhitespaceRemoved : Node → Node → Prop where
  | elementChildren (name : String) (attrs : List Attribute) (pre post : List Node)
      (v : String) (h : pre ++ post ≠ []) :
      Node.WhitespaceRemoved (Node.Element name attrs (pre ++ Node.Whitespace v :: post))
        (Node.Element name attrs (pre ++ post))
  | ifThen (e : Expression) (pre post els : List Node) (v : String) :
      Node.WhitespaceRemoved (Node.IfExpression e (pre ++ Node.Whitespace v :: post) els)
        (Node.IfExpression e (pre ++ post) els)
  | ifElse (e : Expression) (thn pre post : List Node) (v : String) (h : pre ++ post ≠ []) :
      Node.WhitespaceRemoved (Node.IfExpression e thn (pre ++ Node.Whitespace v :: post))
        (Node.IfExpression e thn (pre ++ post))
  | caseChildren (e : Expression) (cpre cpost : List CaseExpression) (ce : Expression)
      (pre post dflt : List Node) (v : String) :
      Node.WhitespaceRemoved
        (Node.SwitchExpression e
          (cpre ++ CaseExpression.mk ce (pre ++ Node.Whitespace v :: post) :: cpost) dflt)
        (Node.SwitchExpression e (cpre ++ CaseExpression.mk ce (pre ++ post) :: cpost) dflt)
  | switchDefault (e : Expression) (cases : List CaseExpression) (pre post : List Node)
      (v : String) (h : pre ++ post ≠ []) :
      Node.WhitespaceRemoved
        (Node.SwitchExpression e cases (pre ++ Node.Whitespace v :: post))
        (Node.SwitchExpression e cases (pre ++ post))
  | forChildren (e : Expression) (pre post : List Node) (v : String) :
      Node.WhitespaceRemoved (Node.ForExpression e (pre ++ Node.Whitespace v :: post))
        (Node.ForExpression e (pre ++ post))
  | inElement (name : String) (attrs : List Attribute) (pre post : List Node) (c c' : Node)
      (h : Node.WhitespaceRemoved c c') :
      Node.WhitespaceRemoved (Node.Element name attrs (pre ++ c :: post))
        (Node.Element name attrs (pre ++ c' :: post))
  | inThen (e : Expression) (pre post els : List Node) (c c' : Node)
      (h : Node.WhitespaceRemoved c c') :
      Node.WhitespaceRemoved (Node.IfExpression e (pre ++ c :: post) els)
        (Node.IfExpression e (pre ++ c' :: post) els)
  | inElse (e : Expression) (thn pre post : List Node) (c c' : Node)
      (h : Node.WhitespaceRemoved c c') :
      Node.WhitespaceRemoved (Node.IfExpression e thn (pre ++ c :: post))
        (Node.IfExpression e thn (pre ++ c' :: post))
  | inCase (e : Expression) (cpre cpost : List CaseExpression) (ce : Expression)
      (pre post dflt : List Node) (c c' : Node) (h : Node.WhitespaceRemoved c c') :
      Node.WhitespaceRemoved
        (Node.SwitchExpression e (cpre ++ CaseExpression.mk ce (pre ++ c :: post) :: cpost) dflt)
        (Node.SwitchExpression e (cpre ++ CaseExpression.mk ce (pre ++ c' :: post) :: cpost)
          dflt)
  | inDefault (e : Expression) (cases : List CaseExpression) (pre post : List Node)
      (c c' : Node) (h : Node.WhitespaceRemoved c c') :
      Node.WhitespaceRemoved (Node.SwitchExpression e cases (pre ++ c :: post))
        (Node.SwitchExpression e cases (pre ++ c' :: post))
  | inFor (e : Expression) (pre post : List Node) (c c' : Node)
      (h : Node.WhitespaceRemoved c c') :
      Node.WhitespaceRemoved (Node.ForExpression e (pre ++ c :: post))
        (Node.ForExpression e (pre ++ c' :: post))

/-- `Template.WhitespaceRemoved t t'`: one `Whitespace` node taken out of `t.Children`, or out
of a child list further down, as `Node.WhitespaceRemoved` has it. -/
inductive Template.WhitespaceRemoved : Template → Template → Prop where
  | children (name params : Expression) (pre post : List Node) (v : String) :
      Template.WhitespaceRemoved
        { Name := name, Parameters := params, Children := pre ++ Node.Whitespace v :: post }
        { Name := name, Parameters := params, Children := pre ++ post }
  | inChildren (name params : Expression) (pre post : List Node) (c c' : Node)
      (h : Node.WhitespaceRemoved c c') :
      Template.WhitespaceRemoved
        { Name := name, Parameters := params, Children := pre ++ c :: post }
        { Name := name, Parameters := params, Children := pre ++ c' :: post }

/-- `TemplateFile.WhitespaceRemoved tf tf'`: one `Whitespace` node taken out of one of the
file's templates. -/
inductive TemplateFile.WhitespaceRemoved : TemplateFile → TemplateFile → Prop where
  | inTemplates (pkg : Templ.Package) (imports : List Import) (pre post : List Template)
      (t t' : Template) (h : Template.WhitespaceRemoved t t') :
      TemplateFile.WhitespaceRemoved
        { Package := pkg, Imports := imports, Templates := pre ++ t :: post }
        { Package := pkg, Imports := imports, Templates := pre ++ t' :: post }

/-! ## Sinks with a journal -/

/-- A sink with a journal: it hands every call to `w` and notes the bytes of the call and
the error `w` returned for it. -/
def recording {σ ε : Type} (w : Writer σ ε) : Writer (σ × List (String × Option ε)) ε where
  Write := fun st p =>
    (((w.Write st.1 p).1, st.2 ++ [(p, (w.Write st.1 p).2)]), (w.Write st.1 p).2)

/-- What the journal of a run and the outcome of the run have to do with each other: the run
does not panic; it returns a non-nil error exactly when some write of the journal failed; and
a returned error is the error of the last write of the journal, every write before it having
succeeded (so it is the first failing write, and no write follows it). -/
def FailureSemantics {ε : Type} (journal : List (String × Option ε)) (o : Outcome ε) : Prop :=
  o ≠ Outcome.panic ∧
  (o ≠ Outcome.nil ↔ ∃ c ∈ journal, c.2 ≠ none) ∧
  ∀ e, o = Outcome.error e →
    ∃ pre p, journal = pre ++ [(p, some e)] ∧ ∀ c ∈ pre, c.2 = none

/-- A sink that counts the calls it gets and fails the call number `k` (from 0) with the
error `"closed"`. -/
def failingAt (k : Nat) : Writer Nat String where
  Write := fun n _ => (n + 1, if n = k then some "closed" else none)

/-! ## Values used in the examples -/

/-- An expression with text `v`, ranging from the start position to itself. -/
def expr (v : String) : Expression := NewExpression v NewPosition NewPosition

/-- The template file of the nesting example: package `templ`, one import `"strings"`, one
template `Render(p Person)` whose only child is the string expression `p.Name()`. -/
def nestingExample : TemplateFile :=
  { Package := { Expression := expr "templ" },
    Imports := [{ Expression := expr "\"strings\"" }],
    Templates := [Template.mk (expr "Render") (expr "p Person")
      [Node.StringExpression (expr "p.Name()")]] }

/-- A template file with two imports and two templates without children. -/
def layoutExample : TemplateFile :=
  { Package := { Expression := expr "p" },
    Imports := [{ Expression := expr "a" }, { Expression := expr "b" }],
    Templates := [Template.mk (expr "f") (expr "") [], Template.mk (expr "g") (expr "") []] }

/-- A template whose only child is a `Whitespace` node, in a file without imports. -/
def whitespaceFile : TemplateFile :=
  { Package := { Expression := expr "p" }, Imports := [],
    Templates := [Template.mk (expr "f") (expr "") [Node.Whitespace " "]] }

/-- The file `whitespaceFile` without the `Whitespace` node. -/
def emptyTemplateFile : TemplateFile :=
  { Package := { Expression := expr "p" }, Imports := [],
    Templates := [Template.mk (expr "f") (expr "") []] }

/-- A file whose package text holds the text of an import clause. -/
def forgedImportFile : TemplateFile :=
  { Package := { Expression := expr "a %\x7d\n\n\x7b% import b" }, Imports := [],
    Templates := [] }

/-- The file with package `a` and the import `b`. -/
def realImportFile : TemplateFile :=
  { Package := { Expression := expr "a" }, Imports := [{ Expression := expr "b" }],
    Templates := [] }

/-- An expression with text `v` at the given byte index, line and column. -/
def exprAt (v : String) (index line col : Int) : Expression :=
  NewExpression v (NewPositionFromValues index line col)
    (NewPositionFromValues (index + v.length) line (col + v.length))

/-- The children of the template of `richExample`, with expressions made by `e`: a `div`
with two attributes that holds a `span`, an `if` with both branches, a `switch` with a case and
a default block, and a `for`. -/
def richChildren (e : String → Expression) : List Node :=
  [Node.Element "div"
    [Attribute.ConstantAttribute "class=" "a<b",
      Attribute.ExpressionAttribute "id=" { Expression := e "p.ID" }]
    [Node.Element "span" [] [Node.StringExpression (e "p.Name()")],
      Node.IfExpression (e "p.Admin")
        [Node.CallTemplateExpression (e "Badge") (e "p")] [Node.Element "br" [] []],
      Node.SwitchExpression (e "p.Kind")
        [CaseExpression.mk (e "1") [Node.StringExpression (e "\"one\"")]]
        [Node.StringExpression (e "\"other\"")],
      Node.ForExpression (e "_, a := range p.Addresses")
        [Node.CallTemplateExpression (e "Address") (e "a")]]]

/-- A template file with every kind of node but `Whitespace`, with expressions made by `e`. -/
def richFile (e : String → Expression) : TemplateFile :=
  { Package := { Expression := e "main" },
    Imports := [{ Expression := e "\"strings\"" }],
    Templates := [Template.mk (e "Render") (e "p Person") (richChildren e)] }

/-- The file `richFile` with all expressions at the start position. -/
def richExample : TemplateFile := richFile expr

/-- The file `richFile` with all expressions at another position. -/
def richExampleMoved : TemplateFile := richFile (fun v => exprAt v 40 3 7)

/-! ## Segments of the top-level layout -/

/-- What `TemplateFile.Write` puts into an empty buffer for the package clause: the clause
and the write of two newlines after it. -/
def packageSegment (p : Package) : String :=
  (andThen (p.Write bytesBuffer "" 0) fun s => write bytesBuffer s "\n\n").1

/-- What one round of the import loop puts into an empty buffer. -/
def importSegment (imp : Import) : String :=
  (andThen (imp.Write bytesBuffer "" 0) fun s => write bytesBuffer s "\n").1

/-- What one round of the template loop puts into an empty buffer. -/
def templateSegment (t : Template) : String :=
  (andThen (t.Write bytesBuffer "" 0) fun s => write bytesBuffer s "\n\n").1

/-! ## Trees up to Position/Range metadata -/

/-- The expression with its `Range` replaced by the range from the start position to
itself: what is left of an expression once the metadata is dropped. -/
def Expression.eraseRange (e : Expression) : Expression :=
  { Value := e.Value, Range := NewRange NewPosition NewPosition }

/-- The attribute with the ranges of its expression dropped. -/
def Attribute.eraseRange : Attribute → Attribute
  | Attribute.ConstantAttribute name value => Attribute.ConstantAttribute name value
  | Attribute.ExpressionAttribute name value =>
      Attribute.ExpressionAttribute name { Expression := value.Expression.eraseRange }

mutual
/-- The node with the ranges of all its expressions dropped. -/
def Node.eraseRange : Node → Node
  | Node.Whitespace v => Node.Whitespace v
  | Node.Element name attrs children =>
      Node.Element name (attrs.map Attribute.eraseRange) (nodesEraseRange children)
  | Node.StringExpression e => Node.StringExpression e.eraseRange
  | Node.CallTemplateExpression name args =>
      Node.CallTemplateExpression name.eraseRange args.eraseRange
  | Node.IfExpression e thenNodes elseNodes =>
      Node.IfExpression e.eraseRange (nodesEraseRange thenNodes) (nodesEraseRange elseNodes)
  | Node.SwitchExpression e cases dflt =>
      Node.SwitchExpression e.eraseRange (casesEraseRange cases) (nodesEraseRange dflt)
  | Node.ForExpression e children =>
      Node.ForExpression e.eraseRange (nodesEraseRange children)
/-- The nodes of a list with their ranges dropped. -/
def nodesEraseRange : List Node → List Node
  | [] => []
  | c :: rest => Node.eraseRange c :: nodesEraseRange rest
/-- The cases of a switch with their ranges dropped. -/
def casesEraseRange : List CaseExpression → List CaseExpression
  | [] => []
  | CaseExpression.mk e children :: rest =>
      CaseExpression.mk e.eraseRange (nodesEraseRange children) :: casesEraseRange rest
end

/-- The import with its range dropped. -/
def Import.eraseRange (imp : Import) : Import := { Expression := imp.Expression.eraseRange }

/-- The template with all ranges dropped. -/
def Template.eraseRange (t : Template) : Template :=
  { Name := t.Name.eraseRange, Parameters := t.Parameters.eraseRange,
    Children := nodesEraseRange t.Children }

/-- The template file with all ranges dropped: two files are equal up to Position/Range
metadata when this gives the same file for both. -/
def TemplateFile.eraseRange (tf : TemplateFile) : TemplateFile :=
  { Package := { Expression := tf.Package.Expression.eraseRange },
    Imports := tf.Imports.map Import.eraseRange,
    Templates := tf.Templates.map Template.eraseRange }

/-! ## The text of a tree, character by character -/

/-- The characters of `j` tabs. -/
def tabChars (j : Nat) : List Char := List.replicate j '\t'

/-- The characters `Node.Write` puts into a buffer at indent `j`. -/
def Node.text (j : Nat) (n : Node) : List Char := (concat (Node.writes j n)).data

/-- The characters `writeNodes` puts into a buffer at indent `j`. -/
def nodesText (j : Nat) (l : List Node) : List Char := (concat (nodesWrites j l)).data

/-- The characters the case loop of a switch puts into a buffer at indent `j`. -/
def casesText (j : Nat) (l : List CaseExpression) : List Char :=
  (concat (casesWrites j l)).data

/-- The characters the attribute loop puts into a buffer. -/
def attributesText (l : List Attribute) : List Char := (concat (attributesWrites l)).data

/-! ## Trees that can be read back from their text -/

/-- Whether the text `m` occurs in the text `l`. -/
def holds (m : List Char) : List Char → Bool
  | [] => false
  | c :: t => m.isPrefixOf (c :: t) || holds m t

/-- The text that closes a clause after an expression: a space, `%` and the closing brace. -/
def closeMark : List Char := [' ', '%', '}']

/-- The text that closes a clause after an argument list: `)` and the `closeMark`. -/
def argumentsCloseMark : List Char := [')', ' ', '%', '}']

/-- Expression text that cannot close its own clause: the `closeMark` does not occur in it. -/
def plainText (s : String) : Bool := !holds closeMark s.data

/-- The arguments of a call or the parameters of a template: the `argumentsCloseMark` does
not occur in them. -/
def plainArguments (s : String) : Bool := !holds argumentsCloseMark s.data

/-- The name of a template or of a called template: it holds no `(`. -/
def plainHead (s : String) : Bool := decide ('(' ∉ s.data)

/-- The characters that end an element name in the output. -/
def tagEnd (c : Char) : Bool := c == ' ' || c == '\t' || c == '/' || c == '>'

/-- An element name that can be read back: not empty, and free of the characters that end
a name in the output (space, tab, `/`, `>`). -/
def plainTag (s : String) : Bool := decide (s.data ≠ []) && s.data.all (fun c => !tagEnd c)

/-- The characters that end an attribute name in the output. -/
def attributeNameEnd (c : Char) : Bool := c == '"' || c == '\x7b'

/-- An attribute name that can be read back: free of the double quote and of the opening
brace. -/
def plainAttributeName (s : String) : Bool := s.data.all (fun c => !attributeNameEnd c)

/-- An attribute that can be read back. -/
def Attribute.plain : Attribute → Bool
  | Attribute.ConstantAttribute name _ => plainAttributeName name
  | Attribute.ExpressionAttribute name v =>
      plainAttributeName name && plainText v.Expression.Value

mutual
/-- A node that can be read back from its text: no `Whitespace` node in it, expression texts
and arguments in which the text that closes their clause does not occur, names of called
templates free of `(`, element names and attribute names free of the characters that end
them in the output. -/
def Node.plain : Node → Bool
  | Node.Whitespace _ => false
  | Node.Element name attrs children =>
      plainTag name && attrs.all Attribute.plain && nodesPlain children
  | Node.StringExpression e => plainText e.Value
  | Node.CallTemplateExpression name args =>
      plainHead name.Value && plainArguments args.Value
  | Node.IfExpression e thenNodes elseNodes =>
      plainText e.Value && nodesPlain thenNodes && nodesPlain elseNodes
  | Node.SwitchExpression e cases dflt =>
      plainText e.Value && casesPlain cases && nodesPlain dflt
  | Node.ForExpression e children => plainText e.Value && nodesPlain children
/-- All nodes of the list are plain. -/
def nodesPlain : List Node → Bool
  | [] => true
  | c :: rest => Node.plain c && nodesPlain rest
/-- All cases of the list are plain. -/
def casesPlain : List CaseExpression → Bool
  | [] => true
  | CaseExpression.mk e children :: rest =>
      plainText e.Value && nodesPlain children && casesPlain rest
end

/-! ## Telling the kind of a node from its text -/

/-- The kind of a node, as a number: 0 whitespace, 1 string expression, 2 call, 3 if,
4 switch, 5 for, 6 element. -/
def Node.kind : Node → Nat
  | Node.Whitespace _ => 0
  | Node.Element _ _ _ => 6
  | Node.StringExpression _ => 1
  | Node.CallTemplateExpression _ _ => 2
  | Node.IfExpression _ _ _ => 3
  | Node.SwitchExpression _ _ _ => 4
  | Node.ForExpression _ _ => 5

/-- The kind of the clause a text opens with. -/
def clauseKind : List Char → Nat
  | '{' :: '%' :: '=' :: _ => 1
  | '{' :: '%' :: ' ' :: 'c' :: _ => 2
  | '{' :: '%' :: ' ' :: 'i' :: _ => 3
  | '{' :: '%' :: ' ' :: 's' :: _ => 4
  | '{' :: '%' :: ' ' :: 'f' :: _ => 5
  | _ => 0

/-- The kind of the node a text at indent `j` starts with: an element when the text opens
with `<` or a line break, else the clause after `j` characters. -/
def textKind (j : Nat) : List Char → Nat
  | '<' :: _ => 6
  | '\n' :: _ => 6
  | x => clauseKind (x.drop j)

/-! ## What may follow a list of nodes -/

/-- A text that no plain node at indent `j` starts: what may follow a list of nodes. -/
def Stop (j : Nat) (r : List Char) : Prop :=
  ∀ (n : Node) (rest : List Char), Node.plain n = true → r ≠ Node.text j n ++ rest

/-- A text that does not open a `case` clause at indent `j`: what may follow the cases of a
switch. -/
def CaseStop (j : Nat) (r : List Char) : Prop :=
  ∀ x : List Char, r ≠ tabChars j ++ ("\x7b% case ".data ++ x)

/-- The text of the node `n` can be read back: a plain node with the same text at the
start, whatever follows, is `n` up to ranges, and what follows is the same. -/
def NodeInj (n : Node) : Prop :=
  ∀ (n' : Node) (j : Nat) (r r' : List Char), Node.plain n = true → Node.plain n' = true →
    Node.text j n ++ r = Node.text j n' ++ r' →
    Node.eraseRange n = Node.eraseRange n' ∧ r = r'

/-- The text of the list `l` can be read back when a text follows that starts no node. -/
def NodesInj (l : List Node) : Prop :=
  ∀ (l' : List Node) (j : Nat) (r r' : List Char), nodesPlain l = true →
    nodesPlain l' = true → Stop j r → Stop j r' →
    nodesText j l ++ r = nodesText j l' ++ r' →
    nodesEraseRange l = nodesEraseRange l' ∧ r = r'

/-- The text of the cases `l` can be read back when a text follows that opens no case. -/
def CasesInj (l : List CaseExpression) : Prop :=
  ∀ (l' : List CaseExpression) (j : Nat) (r r' : List Char), casesPlain l = true →
    casesPlain l' = true → CaseStop j r → CaseStop j r' →
    casesText j l ++ r = casesText j l' ++ r' →
    casesEraseRange l = casesEraseRange l' ∧ r = r'

/-- The text of an element after its attributes: the closing of a childless element, or the
end of the opening tag, the children, and the closing tag. `b` says whether the element is a
block element, `name` is its name. -/
def elementTail (b : Bool) (j : Nat) (name : List Char) (cs : List Node) : List Char :=
  if cs.length = 0 then
    tabChars j ++ (if b then ['/', '>', '\n'] else ['/', '>'])
  else if b then
    '>' :: '\n' :: (nodesText (j + 1) cs
      ++ ('\n' :: (tabChars j ++ ('<' :: '/' :: (name ++ ['>'])))))
  else
    tabChars j ++ ('>' :: (nodesText 0 cs ++ ('<' :: '/' :: (name ++ ['>']))))

/-- A template that can be read back from its text: name free of `(`, parameters in which
the text that closes the clause does not occur, and plain children. -/
def Template.plain (t : Template) : Bool :=
  plainHead t.Name.Value && plainArguments t.Parameters.Value && nodesPlain t.Children

/-- A template file that can be read back from its text: it holds no `Whitespace` node, and no
text of it can be taken for a delimiter of the clause it stands in. The closing text ` %}`
does not occur in an expression text, nor `) %}` in the arguments of a call or the parameters
of a template; names of templates and of called templates hold no `(`; element names are not
empty and hold no space, tab, `/` or `>`; attribute names hold no double quote and no opening
brace. -/
def TemplateFile.Plain (tf : TemplateFile) : Prop :=
  plainText tf.Package.Expression.Value = true ∧
  (∀ imp ∈ tf.Imports, plainText imp.Expression.Value = true) ∧
  (∀ t ∈ tf.Templates, t.plain = true)

instance (tf : TemplateFile) : Decidable tf.Plain := by
  unfold TemplateFile.Plain
  infer_instance

/-! ## Layouts, accepted bytes and the parser contract -/

/-- What `Node.Write` puts into an empty buffer at the given indent. -/
def Node.output (indent : Int) (n : Node) : String := (Node.Write bytesBuffer "" indent n).1

/-- The nodes of a list serialized in list order at the given indent, one after the other. -/
def nodesOutput (indent : Int) (l : List Node) : String := concat (l.map (Node.output indent))

/-- The attributes of an element, each after a single space. -/
def attributesLayout (l : List Attribute) : String := concat (l.map fun a => " " ++ a.String)

/-- The layout of one case of a switch whose clause stands at indent `n`, after the words of
the specification: `n + 1` tabs and the `case` clause on a line, the children at indent
`n + 2`, `n + 1` tabs and `endcase` on a line. -/
def caseLayout (n : Nat) : CaseExpression → String
  | CaseExpression.mk e children =>
      copies "\t" (n + 1) ++ "\x7b% case " ++ e.Value ++ " %\x7d\n"
        ++ nodesOutput ((n : Int) + 2) children
        ++ copies "\t" (n + 1) ++ "\x7b% endcase %\x7d\n"

/-- The bytes a sink has accepted, read from its journal: the payloads of the calls that
returned no error, one after the other. -/
def accepted {ε : Type} (journal : List (String × Option ε)) : String :=
  concat ((journal.filter fun c => c.2.isNone).map Prod.fst)

/-- The payloads of the writes `Node.Write` issues to a buffer, in order. -/
def Node.calls (indent : Int) (n : Node) : List String :=
  ((Node.Write (recording bytesBuffer) ("", []) indent n).1.2).map Prod.fst

/-- The journal of a run against the writes `l` of the run on a sink that never fails: the
calls made are the first calls of `l`, and the bytes accepted are the first bytes of the
text of `l`. -/
def PartialOutput {ε : Type} (journal : List (String × Option ε)) (l : List String) : Prop :=
  journal.map Prod.fst <+: l ∧ (accepted journal).data <+: (concat l).data

/-- Modelled from the spec: the parser of the DSL, which is not among the sources. The
specification describes it by its round-trip contract alone: for a tree `T` built from the
grammar, `parse (write T)` is structurally equal to `T` up to Position/Range metadata. Here
`write T` is the text `TemplateFile.Write` leaves in a buffer, and `Valid` says for which
trees the contract is asked. -/
def RoundTripContract (Valid : TemplateFile → Prop) (parse : String → TemplateFile) : Prop :=
  ∀ T : TemplateFile, Valid T →
    (parse (T.Write bytesBuffer "").1).eraseRange = T.eraseRange

/-! # Lemmas -/

/-! ## Sequencing and the list of writes -/

@[simp] theorem andThen_nil {σ ε : Type} (s : σ) (k : σ → σ × Outcome ε) :
    andThen (s, Outcome.nil) k = k s := rfl

@[simp] theorem andThen_error {σ ε : Type} (s : σ) (e : ε) (k : σ → σ × Outcome ε) :
    andThen (s, Outcome.error e) k = (s, Outcome.error e) := rfl

@[simp] theorem andThen_panic {σ ε : Type} (s : σ) (k : σ → σ × Outcome ε) :
    andThen (s, Outcome.panic) k = (s, Outcome.panic) := rfl

theorem andThen_pure {σ ε : Type} (r : σ × Outcome ε) :
    andThen r (fun s => (s, Outcome.nil)) = r := by
  rcases r with ⟨s, _ | _ | _⟩ <;> rfl

theorem andThen_assoc {σ ε : Type} (r : σ × Outcome ε) (k1 k2 : σ → σ × Outcome ε) :
    andThen (andThen r k1) k2 = andThen r (fun s => andThen (k1 s) k2) := by
  rcases r with ⟨s, _ | _ | _⟩ <;> rfl

theorem writeAll_append {σ ε : Type} (w : Writer σ ε) (s : σ) (a b : List String) :
    writeAll w s (a ++ b) = andThen (writeAll w s a) (fun s1 => writeAll w s1 b) := by
  induction a generalizing s with
  | nil => rfl
  | cons p rest ih =>
    show andThen (write w s p) (fun s1 => writeAll w s1 (rest ++ b)) = _
    simp only [writeAll, andThen_assoc, ih]

theorem write_eq_writeAll {σ ε : Type} (w : Writer σ ε) (s : σ) (p : String) :
    write w s p = writeAll w s [p] := by
  simp only [writeAll, andThen_pure]

theorem stringsRepeat_of_nonneg (level : Int) (h : 0 ≤ level) :
    stringsRepeat "\t" level = some (tabs level) := by
  simp [stringsRepeat, tabs, not_lt.mpr h]

theorem writeIndent_eq_writeAll {σ ε : Type} (w : Writer σ ε) (s : σ) (level : Int)
    (str : String) (h : 0 ≤ level) :
    writeIndent w s level str = writeAll w s (indentWrites level str) := by
  simp only [writeIndent, stringsRepeat_of_nonneg level h, indentWrites, writeAll,
    andThen_pure]

theorem writeAttributes_eq_writeAll {σ ε : Type} (w : Writer σ ε) (s : σ)
    (attrs : List Attribute) :
    writeAttributes w s attrs = writeAll w s (attributesWrites attrs) := by
  induction attrs generalizing s with
  | nil => rfl
  | cons a rest ih => simp only [writeAttributes, attributesWrites, writeAll, ih]

@[simp] theorem writeAll_nil {σ ε : Type} (w : Writer σ ε) (s : σ) :
    writeAll w s [] = (s, Outcome.nil) := rfl

/-! ## `Write` is `writeAll` of the writes of the tree -/

mutual
theorem nodeWrite_eq_writeAll {σ ε : Type} (w : Writer σ ε) :
    ∀ (n : Node) (s : σ) (indent : Int), 0 ≤ indent →
      Node.Write w s indent n = writeAll w s (Node.writes indent n)
  | Node.Whitespace _, s, indent, _ => rfl
  | Node.Element name attrs children, s, indent, h => by
    have h1 : (0 : Int) ≤ indent + 1 := by omega
    have hc := writeNodes_eq_writeAll w children
    simp only [Node.Write, Node.writes]
    by_cases hb : isBlockElement name = true <;> by_cases hl : children.length = 0 <;>
      simp only [hb, hl, Bool.false_eq_true, ↓reduceIte, writeAll_append, andThen_assoc,
        writeIndent_eq_writeAll w _ indent _ h, writeIndent_eq_writeAll w _ 0 _ le_rfl,
        write_eq_writeAll, writeAttributes_eq_writeAll, hc _ _ h1, hc _ 0 le_rfl,
        add_sub_cancel_right, andThen_nil, writeAll_nil, andThen_pure]
  | Node.StringExpression e, s, indent, h => by
    simp only [Node.Write, Node.writes, writeIndent_eq_writeAll w _ indent _ h]
  | Node.CallTemplateExpression name args, s, indent, h => by
    simp only [Node.Write, Node.writes, writeIndent_eq_writeAll w _ indent _ h]
  | Node.IfExpression e thenNodes elseNodes, s, indent, h => by
    have h1 : (0 : Int) ≤ indent + 1 := by omega
    have ht := writeNodes_eq_writeAll w thenNodes
    have he := writeNodes_eq_writeAll w elseNodes
    simp only [Node.Write, Node.writes]
    by_cases hl : elseNodes.length > 0 <;>
      simp only [hl, ↓reduceIte, writeAll_append, andThen_assoc,
        add_sub_cancel_right, writeIndent_eq_writeAll w _ indent _ h, ht _ _ h1, he _ _ h1,
        andThen_nil, writeAll_nil]
  | Node.SwitchExpression e cases dflt, s, indent, h => by
    have h1 : (0 : Int) ≤ indent + 1 := by omega
    have h2 : (0 : Int) ≤ indent + 1 + 1 := by omega
    have hcs := writeCases_eq_writeAll w cases
    have hd := writeNodes_eq_writeAll w dflt
    simp only [Node.Write, Node.writes]
    by_cases hl : dflt.length > 0 <;>
      simp only [hl, ↓reduceIte, writeAll_append, andThen_assoc,
        add_sub_cancel_right, writeIndent_eq_writeAll w _ indent _ h,
        writeIndent_eq_writeAll w _ (indent + 1) _ h1, hcs _ _ h1, hd _ _ h2,
        andThen_nil, writeAll_nil]
  | Node.ForExpression e children, s, indent, h => by
    have h1 : (0 : Int) ≤ indent + 1 := by omega
    have hc := writeNodes_eq_writeAll w children
    simp only [Node.Write, Node.writes, writeAll_append, andThen_assoc,
      add_sub_cancel_right, writeIndent_eq_writeAll w _ indent _ h, hc _ _ h1]
theorem writeNodes_eq_writeAll {σ ε : Type} (w : Writer σ ε) :
    ∀ (l : List Node) (s : σ) (indent : Int), 0 ≤ indent →
      writeNodes w s indent l = writeAll w s (nodesWrites indent l)
  | [], s, indent, _ => rfl
  | c :: rest, s, indent, h => by
    have hc := nodeWrite_eq_writeAll w c
    have hr := writeNodes_eq_writeAll w rest
    simp only [writeNodes, nodesWrites, writeAll_append, hc _ _ h, hr _ _ h]
theorem writeCases_eq_writeAll {σ ε : Type} (w : Writer σ ε) :
    ∀ (l : List CaseExpression) (s : σ) (indent : Int), 0 ≤ indent →
      writeCases w s indent l = writeAll w s (casesWrites indent l)
  | [], s, indent, _ => rfl
  | CaseExpression.mk e children :: rest, s, indent, h => by
    have h1 : (0 : Int) ≤ indent + 1 := by omega
    have hc := writeNodes_eq_writeAll w children
    have hr := writeCases_eq_writeAll w rest
    simp only [writeCases, casesWrites, writeAll_append, andThen_assoc,
      add_sub_cancel_right, writeIndent_eq_writeAll w _ indent _ h, hc _ _ h1, hr _ _ h]
end

theorem templateWrite_eq_writeAll {σ ε : Type} (w : Writer σ ε) (t : Template) (s : σ)
    (indent : Int) (h : 0 ≤ indent) :
    t.Write w s indent = writeAll w s (t.writes indent) := by
  have h1 : (0 : Int) ≤ indent + 1 := by omega
  simp only [Template.Write, Template.writes, writeAll_append, andThen_assoc,
    writeIndent_eq_writeAll w _ indent _ h, writeNodes_eq_writeAll w _ _ _ h1]

theorem writeImports_eq_writeAll {σ ε : Type} (w : Writer σ ε) (l : List Import) (s : σ)
    (indent : Int) (h : 0 ≤ indent) :
    writeImports w s indent l = writeAll w s (importsWrites indent l) := by
  induction l generalizing s with
  | nil => rfl
  | cons imp rest ih =>
    simp only [writeImports, importsWrites, Import.Write, writeAll_append, andThen_assoc,
      writeIndent_eq_writeAll w _ indent _ h, write_eq_writeAll, ih]

theorem writeTemplates_eq_writeAll {σ ε : Type} (w : Writer σ ε) (l : List Template) (s : σ)
    (indent : Int) (h : 0 ≤ indent) :
    writeTemplates w s indent l = writeAll w s (templatesWrites indent l) := by
  induction l generalizing s with
  | nil => rfl
  | cons t rest ih =>
    simp only [writeTemplates, templatesWrites, writeAll_append, andThen_assoc,
      templateWrite_eq_writeAll w _ _ indent h, write_eq_writeAll, ih]

theorem templateFileWrite_eq_writeAll {σ ε : Type} (w : Writer σ ε) (tf : TemplateFile)
    (s : σ) : tf.Write w s = writeAll w s tf.writes := by
  simp only [TemplateFile.Write, TemplateFile.writes, Package.Write, writeAll_append,
    andThen_assoc, writeIndent_eq_writeAll w _ 0 _ le_rfl, write_eq_writeAll,
    writeImports_eq_writeAll w _ _ 0 le_rfl, writeTemplates_eq_writeAll w _ _ 0 le_rfl]

/-! ## The buffer sink -/

theorem concat_append (a b : List String) : concat (a ++ b) = concat a ++ concat b := by
  induction a with
  | nil => simp [concat]
  | cons p rest ih =>
    show p ++ concat (rest ++ b) = p ++ concat rest ++ concat b
    rw [ih, String.append_assoc]

theorem writeAll_bytesBuffer (s : String) (l : List String) :
    writeAll bytesBuffer s l = (s ++ concat l, Outcome.nil) := by
  induction l generalizing s with
  | nil => simp [concat]
  | cons p rest ih =>
    have hw : write bytesBuffer s p = (s ++ p, Outcome.nil) := rfl
    show andThen (write bytesBuffer s p) (fun s1 => writeAll bytesBuffer s1 rest) = _
    rw [hw, andThen_nil, ih, String.append_assoc]
    rfl

/-! ## Whitespace nodes -/

theorem writeNodes_append {σ ε : Type} (w : Writer σ ε) (a b : List Node) (s : σ)
    (indent : Int) :
    writeNodes w s indent (a ++ b)
      = andThen (writeNodes w s indent a) (fun s1 => writeNodes w s1 indent b) := by
  induction a generalizing s with
  | nil => rfl
  | cons c rest ih =>
    show writeNodes w s indent (c :: (rest ++ b)) = _
    simp only [writeNodes, andThen_assoc, ih]

theorem writeCases_append {σ ε : Type} (w : Writer σ ε) (a b : List CaseExpression) (s : σ)
    (indent : Int) :
    writeCases w s indent (a ++ b)
      = andThen (writeCases w s indent a) (fun s1 => writeCases w s1 indent b) := by
  induction a generalizing s with
  | nil => rfl
  | cons c rest ih =>
    cases c with
    | mk e children =>
      show writeCases w s indent (CaseExpression.mk e children :: (rest ++ b)) = _
      simp only [writeCases, andThen_assoc, add_sub_cancel_right, ih]

theorem writeNodes_whitespace {σ ε : Type} (w : Writer σ ε) (pre post : List Node)
    (v : String) (s : σ) (indent : Int) :
    writeNodes w s indent (pre ++ Node.Whitespace v :: post)
      = writeNodes w s indent (pre ++ post) := by
  simp only [writeNodes_append, writeNodes, Node.Write, andThen_nil]

theorem writeNodes_congr {σ ε : Type} (w : Writer σ ε) (pre post : List Node) (c c' : Node)
    (h : ∀ (s : σ) (indent : Int), Node.Write w s indent c = Node.Write w s indent c')
    (s : σ) (indent : Int) :
    writeNodes w s indent (pre ++ c :: post) = writeNodes w s indent (pre ++ c' :: post) := by
  simp only [writeNodes_append, writeNodes, h]

theorem writeCases_congr {σ ε : Type} (w : Writer σ ε) (pre post : List CaseExpression)
    (e : Expression) (cs cs' : List Node)
    (h : ∀ (s : σ) (indent : Int), writeNodes w s indent cs = writeNodes w s indent cs')
    (s : σ) (indent : Int) :
    writeCases w s indent (pre ++ CaseExpression.mk e cs :: post)
      = writeCases w s indent (pre ++ CaseExpression.mk e cs' :: post) := by
  simp only [writeCases_append, writeCases, h]

theorem nodeWrite_element_congr {σ ε : Type} (w : Writer σ ε) (name : String)
    (attrs : List Attribute) (cs cs' : List Node)
    (hlen : cs.length = 0 ↔ cs'.length = 0)
    (h : ∀ (s : σ) (indent : Int), writeNodes w s indent cs = writeNodes w s indent cs')
    (s : σ) (indent : Int) :
    Node.Write w s indent (Node.Element name attrs cs)
      = Node.Write w s indent (Node.Element name attrs cs') := by
  simp only [Node.Write, hlen, h]

theorem nodeWrite_else_congr {σ ε : Type} (w : Writer σ ε) (e : Expression)
    (thn cs cs' : List Node) (hlen : cs.length > 0 ↔ cs'.length > 0)
    (h : ∀ (s : σ) (indent : Int), writeNodes w s indent cs = writeNodes w s indent cs')
    (s : σ) (indent : Int) :
    Node.Write w s indent (Node.IfExpression e thn cs)
      = Node.Write w s indent (Node.IfExpression e thn cs') := by
  simp only [Node.Write, hlen, h]

theorem nodeWrite_default_congr {σ ε : Type} (w : Writer σ ε) (e : Expression)
    (cases : List CaseExpression) (cs cs' : List Node)
    (hlen : cs.length > 0 ↔ cs'.length > 0)
    (h : ∀ (s : σ) (indent : Int), writeNodes w s indent cs = writeNodes w s indent cs')
    (s : σ) (indent : Int) :
    Node.Write w s indent (Node.SwitchExpression e cases cs)
      = Node.Write w s indent (Node.SwitchExpression e cases cs') := by
  simp only [Node.Write, hlen, h]

theorem length_whitespace_iff (pre post : List Node) (v : String) (h : pre ++ post ≠ []) :
    ((pre ++ Node.Whitespace v :: post).length = 0 ↔ (pre ++ post).length = 0) ∧
    ((pre ++ Node.Whitespace v :: post).length > 0 ↔ (pre ++ post).length > 0) := by
  have h1 : (pre ++ post).length ≠ 0 := fun h0 => h (List.length_eq_zero.mp h0)
  have h2 : (pre ++ Node.Whitespace v :: post).length = (pre ++ post).length + 1 := by
    simp only [List.length_append, List.length_cons]; omega
  omega

theorem length_replace_iff (pre post : List Node) (c c' : Node) :
    ((pre ++ c :: post).length = 0 ↔ (pre ++ c' :: post).length = 0) ∧
    ((pre ++ c :: post).length > 0 ↔ (pre ++ c' :: post).length > 0) := by
  have h : (pre ++ c :: post).length = (pre ++ c' :: post).length := by
    simp only [List.length_append, List.length_cons]
  rw [h]
  exact ⟨Iff.rfl, Iff.rfl⟩

theorem nodeWrite_of_whitespaceRemoved {σ ε : Type} (w : Writer σ ε) (n n' : Node)
    (h : Node.WhitespaceRemoved n n') :
    ∀ (s : σ) (indent : Int), Node.Write w s indent n = Node.Write w s indent n' := by
  induction h with
  | elementChildren name attrs pre post v h =>
    exact nodeWrite_element_congr w name attrs _ _ (length_whitespace_iff pre post v h).1
      (writeNodes_whitespace w pre post v)
  | ifThen e pre post els v =>
    intro s indent
    simp only [Node.Write, writeNodes_whitespace]
  | ifElse e thn pre post v h =>
    exact nodeWrite_else_congr w e thn _ _ (length_whitespace_iff pre post v h).2
      (writeNodes_whitespace w pre post v)
  | caseChildren e cpre cpost ce pre post dflt v =>
    intro s indent
    simp only [Node.Write,
      writeCases_congr w cpre cpost ce _ _ (writeNodes_whitespace w pre post v)]
  | switchDefault e cases pre post v h =>
    exact nodeWrite_default_congr w e cases _ _ (length_whitespace_iff pre post v h).2
      (writeNodes_whitespace w pre post v)
  | forChildren e pre post v =>
    intro s indent
    simp only [Node.Write, writeNodes_whitespace]
  | inElement name attrs pre post c c' _ ih =>
    exact nodeWrite_element_congr w name attrs _ _ (length_replace_iff pre post c c').1
      (writeNodes_congr w pre post c c' ih)
  | inThen e pre post els c c' _ ih =>
    intro s indent
    simp only [Node.Write, writeNodes_congr w pre post c c' ih]
  | inElse e thn pre post c c' _ ih =>
    exact nodeWrite_else_congr w e thn _ _ (length_replace_iff pre post c c').2
      (writeNodes_congr w pre post c c' ih)
  | inCase e cpre cpost ce pre post dflt c c' _ ih =>
    intro s indent
    simp only [Node.Write,
      writeCases_congr w cpre cpost ce _ _ (writeNodes_congr w pre post c c' ih)]
  | inDefault e cases pre post c c' _ ih =>
    exact nodeWrite_default_congr w e cases _ _ (length_replace_iff pre post c c').2
      (writeNodes_congr w pre post c c' ih)
  | inFor e pre post c c' _ ih =>
    intro s indent
    simp only [Node.Write, writeNodes_congr w pre post c c' ih]

theorem templateWrite_of_whitespaceRemoved {σ ε : Type} (w : Writer σ ε) (t t' : Template)
    (h : Template.WhitespaceRemoved t t') (s : σ) (indent : Int) :
    t.Write w s indent = t'.Write w s indent := by
  cases h with
  | children name params pre post v =>
    simp only [Template.Write, writeNodes_whitespace]
  | inChildren name params pre post c c' h =>
    simp only [Template.Write,
      writeNodes_congr w pre post c c' (nodeWrite_of_whitespaceRemoved w c c' h)]

theorem writeTemplates_append {σ ε : Type} (w : Writer σ ε) (a b : List Template) (s : σ)
    (indent : Int) :
    writeTemplates w s indent (a ++ b)
      = andThen (writeTemplates w s indent a) (fun s1 => writeTemplates w s1 indent b) := by
  induction a generalizing s with
  | nil => rfl
  | cons c rest ih =>
    show writeTemplates w s indent (c :: (rest ++ b)) = _
    simp only [writeTemplates, andThen_assoc, ih]

theorem templateFileWrite_of_whitespaceRemoved {σ ε : Type} (w : Writer σ ε)
    (tf tf' : TemplateFile) (h : TemplateFile.WhitespaceRemoved tf tf') (s : σ) :
    tf.Write w s = tf'.Write w s := by
  cases h with
  | inTemplates pkg imports pre post t t' h =>
    simp only [TemplateFile.Write, writeTemplates_append, writeTemplates,
      templateWrite_of_whitespaceRemoved w t t' h]

/-! ## Failure semantics -/

theorem failureSemantics_empty {ε : Type} :
    FailureSemantics ([] : List (String × Option ε)) Outcome.nil := by
  refine ⟨by simp, by simp, by simp⟩

theorem failureSemantics_failed {ε : Type} (p : String) (e : ε) :
    FailureSemantics [(p, some e)] (Outcome.error e) := by
  refine ⟨by simp, by simp, ?_⟩
  intro e' he
  cases he
  exact ⟨[], p, rfl, by simp⟩

theorem failureSemantics_cons {ε : Type} (p : String) (ext : List (String × Option ε))
    (o : Outcome ε) (h : FailureSemantics ext o) :
    FailureSemantics ((p, none) :: ext) o := by
  obtain ⟨h1, h2, h3⟩ := h
  refine ⟨h1, ?_, ?_⟩
  · rw [h2]
    constructor
    · rintro ⟨c, hc, hn⟩
      exact ⟨c, List.mem_cons_of_mem _ hc, hn⟩
    · rintro ⟨c, hc, hn⟩
      rcases List.mem_cons.mp hc with rfl | hc
      · exact absurd rfl hn
      · exact ⟨c, hc, hn⟩
  · intro e he
    obtain ⟨pre, q, hj, hpre⟩ := h3 e he
    refine ⟨(p, none) :: pre, q, by rw [hj]; rfl, ?_⟩
    intro c hc
    rcases List.mem_cons.mp hc with rfl | hc
    · rfl
    · exact hpre c hc

theorem writeAll_recording {σ ε : Type} (w : Writer σ ε) (l : List String) :
    ∀ (s : σ) (journal : List (String × Option ε)),
      (writeAll (recording w) (s, journal) l).1.1 = (writeAll w s l).1 ∧
      (writeAll (recording w) (s, journal) l).2 = (writeAll w s l).2 ∧
      ∃ ext, (writeAll (recording w) (s, journal) l).1.2 = journal ++ ext ∧
        FailureSemantics ext (writeAll (recording w) (s, journal) l).2 := by
  induction l with
  | nil =>
    intro s journal
    exact ⟨rfl, rfl, [], (List.append_nil _).symm, failureSemantics_empty⟩
  | cons p rest ih =>
    intro s journal
    rcases hw : w.Write s p with ⟨s', _ | e⟩
    · have h1 : write (recording w) (s, journal) p
          = ((s', journal ++ [(p, none)]), Outcome.nil) := by
        simp only [write, recording, hw]
      have h2 : write w s p = (s', Outcome.nil) := by simp only [write, hw]
      obtain ⟨ha, hb, ext, hc, hd⟩ := ih s' (journal ++ [(p, none)])
      simp only [writeAll, h1, h2, andThen_nil]
      refine ⟨ha, hb, (p, none) :: ext, ?_, failureSemantics_cons p ext _ hd⟩
      rw [hc, List.append_assoc]
      rfl
    · have h1 : write (recording w) (s, journal) p
          = ((s', journal ++ [(p, some e)]), Outcome.error e) := by
        simp only [write, recording, hw]
      have h2 : write w s p = (s', Outcome.error e) := by simp only [write, hw]
      have h3 : writeAll (recording w) (s, journal) (p :: rest)
          = ((s', journal ++ [(p, some e)]), Outcome.error e) := by
        simp only [writeAll, h1, andThen_error]
      have h4 : writeAll w s (p :: rest) = (s', Outcome.error e) := by
        simp only [writeAll, h2, andThen_error]
      rw [h3, h4]
      exact ⟨rfl, rfl, [(p, some e)], rfl, failureSemantics_failed p e⟩

theorem writeAll_recording_journal {σ ε : Type} (w : Writer σ ε) (l : List String) (s : σ) :
    FailureSemantics (writeAll (recording w) (s, []) l).1.2
      (writeAll (recording w) (s, []) l).2 := by
  obtain ⟨_, _, ext, hc, hd⟩ := writeAll_recording w l s []
  rw [hc, List.nil_append]
  exact hd

theorem concat_singleton (p : String) : concat [p] = p := by
  show p ++ "" = p
  exact String.append_empty p

theorem concat_nil : concat [] = "" := rfl

theorem concat_cons (p : String) (rest : List String) :
    concat (p :: rest) = p ++ concat rest := rfl

theorem write_bytesBuffer (s p : String) :
    write bytesBuffer s p = ((s ++ p, Outcome.nil) : String × Outcome Unit) := rfl

theorem packageSegment_eq (p : Package) :
    packageSegment p
      = concat (indentWrites 0 ("\x7b% package " ++ p.Expression.Value ++ " %\x7d")) ++ "\n\n" := by
  simp only [packageSegment, Package.Write, writeIndent_eq_writeAll bytesBuffer _ 0 _ le_rfl,
    writeAll_bytesBuffer, write_bytesBuffer, andThen_nil, String.empty_append]

theorem importSegment_eq (imp : Import) :
    importSegment imp
      = concat (indentWrites 0 ("\x7b% import " ++ imp.Expression.Value ++ " %\x7d\n")) ++ "\n" := by
  simp only [importSegment, Import.Write, writeIndent_eq_writeAll bytesBuffer _ 0 _ le_rfl,
    writeAll_bytesBuffer, write_bytesBuffer, andThen_nil, String.empty_append]

theorem templateSegment_eq (t : Template) :
    templateSegment t = concat (t.writes 0) ++ "\n\n" := by
  simp only [templateSegment, templateWrite_eq_writeAll bytesBuffer t _ 0 le_rfl,
    writeAll_bytesBuffer, write_bytesBuffer, andThen_nil, String.empty_append]

theorem concat_importsWrites (l : List Import) :
    concat (importsWrites 0 l) = concat (l.map importSegment) := by
  induction l with
  | nil => rfl
  | cons imp rest ih =>
    simp only [importsWrites, List.map_cons, concat_cons, concat_append, concat_singleton,
      concat_nil, String.empty_append, ih, importSegment_eq, String.append_assoc]

theorem concat_templatesWrites (l : List Template) :
    concat (templatesWrites 0 l) = concat (l.map templateSegment) := by
  induction l with
  | nil => rfl
  | cons t rest ih =>
    simp only [templatesWrites, List.map_cons, concat_cons, concat_append, concat_singleton,
      concat_nil, String.empty_append, ih, templateSegment_eq, String.append_assoc]

theorem templateFileWrite_bytesBuffer (tf : TemplateFile) :
    tf.Write bytesBuffer ""
      = (packageSegment tf.Package
          ++ concat (tf.Imports.map importSegment)
          ++ "\n"
          ++ concat (tf.Templates.map templateSegment),
        Outcome.nil) := by
  rw [templateFileWrite_eq_writeAll, writeAll_bytesBuffer]
  simp only [TemplateFile.writes, concat_append, concat_singleton, concat_importsWrites,
    concat_templatesWrites, packageSegment_eq, String.append_assoc, String.empty_append]

/-! ## Escaping -/

theorem htmlEscaper_clean (c : Char) :
    '<' ∉ (htmlEscaper c).data ∧ '>' ∉ (htmlEscaper c).data ∧ '"' ∉ (htmlEscaper c).data := by
  unfold htmlEscaper
  split_ifs with h1 h2 h3 h4 h5
  · decide
  · decide
  · decide
  · decide
  · decide
  · refine ⟨?_, ?_, ?_⟩ <;> intro hm <;>
      have hc := List.mem_singleton.mp (show _ ∈ [c] from hm)
    · exact h3 hc.symm
    · exact h4 hc.symm
    · exact h5 hc.symm

theorem escapeChars_clean (l : List Char) :
    '<' ∉ (escapeChars l).data ∧ '>' ∉ (escapeChars l).data ∧ '"' ∉ (escapeChars l).data := by
  induction l with
  | nil => decide
  | cons c rest ih =>
    obtain ⟨h1, h2, h3⟩ := htmlEscaper_clean c
    obtain ⟨i1, i2, i3⟩ := ih
    simp only [escapeChars, String.data_append, List.mem_append, not_or]
    exact ⟨⟨h1, i1⟩, ⟨h2, i2⟩, ⟨h3, i3⟩⟩

/-! ## Position/Range metadata is not written -/

theorem attributeString_eraseRange (a : Attribute) : a.eraseRange.String = a.String := by
  cases a <;> rfl

theorem writeAttributes_eraseRange {σ ε : Type} (w : Writer σ ε) (attrs : List Attribute)
    (s : σ) :
    writeAttributes w s (attrs.map Attribute.eraseRange) = writeAttributes w s attrs := by
  induction attrs generalizing s with
  | nil => rfl
  | cons a rest ih =>
    simp only [List.map_cons, writeAttributes, attributeString_eraseRange, ih]

theorem length_nodesEraseRange (l : List Node) : (nodesEraseRange l).length = l.length := by
  induction l with
  | nil => rfl
  | cons c rest ih => simp only [nodesEraseRange, List.length_cons, ih]

mutual
theorem nodeWrite_eraseRange {σ ε : Type} (w : Writer σ ε) :
    ∀ (n : Node) (s : σ) (indent : Int),
      Node.Write w s indent (Node.eraseRange n) = Node.Write w s indent n
  | Node.Whitespace _, _, _ => rfl
  | Node.Element name attrs children, s, indent => by
    have hc := writeNodes_eraseRange w children
    simp only [Node.eraseRange, Node.Write, writeAttributes_eraseRange,
      length_nodesEraseRange, hc]
  | Node.StringExpression e, _, _ => rfl
  | Node.CallTemplateExpression name args, _, _ => rfl
  | Node.IfExpression e thenNodes elseNodes, s, indent => by
    have ht := writeNodes_eraseRange w thenNodes
    have he := writeNodes_eraseRange w elseNodes
    simp only [Node.eraseRange, Node.Write, length_nodesEraseRange, ht, he,
      Expression.eraseRange]
  | Node.SwitchExpression e cases dflt, s, indent => by
    have hcs := writeCases_eraseRange w cases
    have hd := writeNodes_eraseRange w dflt
    simp only [Node.eraseRange, Node.Write, length_nodesEraseRange, hcs, hd,
      Expression.eraseRange]
  | Node.ForExpression e children, s, indent => by
    have hc := writeNodes_eraseRange w children
    simp only [Node.eraseRange, Node.Write, hc, Expression.eraseRange]
theorem writeNodes_eraseRange {σ ε : Type} (w : Writer σ ε) :
    ∀ (l : List Node) (s : σ) (indent : Int),
      writeNodes w s indent (nodesEraseRange l) = writeNodes w s indent l
  | [], _, _ => rfl
  | c :: rest, s, indent => by
    have hc := nodeWrite_eraseRange w c
    have hr := writeNodes_eraseRange w rest
    simp only [nodesEraseRange, writeNodes, hc, hr]
theorem writeCases_eraseRange {σ ε : Type} (w : Writer σ ε) :
    ∀ (l : List CaseExpression) (s : σ) (indent : Int),
      writeCases w s indent (casesEraseRange l) = writeCases w s indent l
  | [], _, _ => rfl
  | CaseExpression.mk e children :: rest, s, indent => by
    have hc := writeNodes_eraseRange w children
    have hr := writeCases_eraseRange w rest
    simp only [casesEraseRange, writeCases, hc, hr, Expression.eraseRange]
end

theorem templateWrite_eraseRange {σ ε : Type} (w : Writer σ ε) (t : Template) (s : σ)
    (indent : Int) : t.eraseRange.Write w s indent = t.Write w s indent := by
  simp only [Template.Write, Template.eraseRange, Expression.eraseRange,
    writeNodes_eraseRange]

theorem writeImports_eraseRange {σ ε : Type} (w : Writer σ ε) (l : List Import) (s : σ)
    (indent : Int) :
    writeImports w s indent (l.map Import.eraseRange) = writeImports w s indent l := by
  induction l generalizing s with
  | nil => rfl
  | cons imp rest ih =>
    simp only [List.map_cons, writeImports, ih]
    rfl

theorem writeTemplates_eraseRange {σ ε : Type} (w : Writer σ ε) (l : List Template) (s : σ)
    (indent : Int) :
    writeTemplates w s indent (l.map Template.eraseRange) = writeTemplates w s indent l := by
  induction l generalizing s with
  | nil => rfl
  | cons t rest ih =>
    simp only [List.map_cons, writeTemplates, ih, templateWrite_eraseRange]

theorem templateFileWrite_eraseRange {σ ε : Type} (w : Writer σ ε) (tf : TemplateFile)
    (s : σ) : tf.eraseRange.Write w s = tf.Write w s := by
  simp only [TemplateFile.Write, TemplateFile.eraseRange, writeImports_eraseRange,
    writeTemplates_eraseRange]
  rfl

/-! ## Reading the top-level layout back -/

theorem split_at_marker (m : Char) (a a' r r' : List Char) (ha : m ∉ a) (ha' : m ∉ a')
    (h : a ++ m :: r = a' ++ m :: r') : a = a' ∧ r = r' := by
  induction a generalizing a' with
  | nil =>
    cases a' with
    | nil => exact ⟨rfl, by simpa using h⟩
    | cons c t =>
      simp only [List.nil_append, List.cons_append, List.cons.injEq] at h
      exact absurd (h.1 ▸ List.mem_cons_self _ _) ha'
  | cons c t ih =>
    cases a' with
    | nil =>
      simp only [List.nil_append, List.cons_append, List.cons.injEq] at h
      exact absurd (h.1 ▸ List.mem_cons_self _ _) ha
    | cons c' t' =>
      simp only [List.cons_append, List.cons.injEq] at h
      obtain ⟨h1, h2⟩ := ih t' (fun hm => ha (List.mem_cons_of_mem _ hm))
        (fun hm => ha' (List.mem_cons_of_mem _ hm)) h.2
      exact ⟨by rw [h.1, h1], h2⟩

theorem holds_tail (m : List Char) (c : Char) (t : List Char)
    (h : holds m (c :: t) = false) : holds m t = false := by
  simp only [holds, Bool.or_eq_false_iff] at h
  exact h.2

theorem split_at_close (a a' r r' : List Char) (ha : holds closeMark a = false)
    (ha' : holds closeMark a' = false)
    (h : a ++ ' ' :: '%' :: '}' :: r = a' ++ ' ' :: '%' :: '}' :: r') :
    a = a' ∧ '}' :: r = '}' :: r' := by
  induction a generalizing a' with
  | nil =>
    cases a' with
    | nil => exact ⟨rfl, by simpa using h⟩
    | cons c t =>
      exfalso
      rcases t with _ | ⟨c2, _ | ⟨c3, t3⟩⟩ <;>
        simp only [List.nil_append, List.cons_append, List.cons.injEq, Char.reduceEq,
          false_and, and_false] at h
      obtain ⟨h1, h2, h3, _⟩ := h
      rw [← h1, ← h2, ← h3] at ha'
      simp [holds, closeMark, List.isPrefixOf] at ha'
  | cons c t ih =>
    cases a' with
    | nil =>
      exfalso
      rcases t with _ | ⟨c2, _ | ⟨c3, t3⟩⟩ <;>
        simp only [List.nil_append, List.cons_append, List.cons.injEq, Char.reduceEq,
          false_and, and_false] at h
      obtain ⟨h1, h2, h3, _⟩ := h
      rw [h1, h2, h3] at ha
      simp [holds, closeMark, List.isPrefixOf] at ha
    | cons c' t' =>
      simp only [List.cons_append, List.cons.injEq] at h
      obtain ⟨h1, h2⟩ := ih t' (holds_tail _ _ _ ha) (holds_tail _ _ _ ha') h.2
      exact ⟨by rw [h.1, h1], h2⟩

theorem plainText_iff (s : String) :
    plainText s = true ↔ holds closeMark s.data = false := by
  simp [plainText]

theorem plainArguments_iff (s : String) :
    plainArguments s = true ↔ holds argumentsCloseMark s.data = false := by
  simp [plainArguments]

theorem plainHead_iff (s : String) : plainHead s = true ↔ '(' ∉ s.data := by
  simp [plainHead]

theorem tabs_zero : tabs 0 = "" := rfl

theorem packageSegment_data (p : Package) :
    (packageSegment p).data
      = "\x7b% package ".data ++ (p.Expression.Value.data ++ " %\x7d\n\n".data) := by
  simp only [packageSegment_eq, indentWrites, concat_cons, concat_nil, tabs_zero,
    String.data_append, String.empty_append, String.append_empty, List.append_assoc]
  rfl

theorem importSegment_data (imp : Import) :
    (importSegment imp).data
      = "\x7b% import ".data ++ (imp.Expression.Value.data ++ " %\x7d\n\n".data) := by
  simp only [importSegment_eq, indentWrites, concat_cons, concat_nil, tabs_zero,
    String.data_append, String.empty_append, String.append_empty, List.append_assoc]
  rfl

theorem expression_eraseRange_eq (e e' : Expression) (h : e.Value.data = e'.Value.data) :
    e.eraseRange = e'.eraseRange := by
  simp only [Expression.eraseRange, String.ext h]

theorem importSegments_inj (l l' : List Import)
    (hl : ∀ imp ∈ l, plainText imp.Expression.Value = true)
    (hl' : ∀ imp ∈ l', plainText imp.Expression.Value = true) (r r' : List Char)
    (h : (concat (l.map importSegment)).data ++ '\n' :: r
      = (concat (l'.map importSegment)).data ++ '\n' :: r') :
    l.map Import.eraseRange = l'.map Import.eraseRange ∧ r = r' := by
  induction l generalizing l' with
  | nil =>
    cases l' with
    | nil => exact ⟨rfl, by simpa [concat_nil] using h⟩
    | cons i' t' =>
      simp only [List.map_nil, List.map_cons, concat_nil, concat_cons, String.data_append,
        importSegment_data, List.append_assoc] at h
      exact absurd (List.cons.inj h).1 (by decide)
  | cons i t ih =>
    cases l' with
    | nil =>
      simp only [List.map_nil, List.map_cons, concat_nil, concat_cons, String.data_append,
        importSegment_data, List.append_assoc] at h
      exact absurd (List.cons.inj h).1 (by decide)
    | cons i' t' =>
      simp only [List.map_cons, concat_cons, String.data_append, importSegment_data,
        List.append_assoc, List.cons_append, List.nil_append] at h
      simp only [List.cons.injEq, true_and] at h
      obtain ⟨hv, h2⟩ := split_at_close _ _ _ _
        ((plainText_iff _).mp (hl i (List.mem_cons_self _ _)))
        ((plainText_iff _).mp (hl' i' (List.mem_cons_self _ _))) h
      simp only [List.cons.injEq, true_and] at h2
      obtain ⟨h3, h4⟩ := ih t' (fun x hx => hl x (List.mem_cons_of_mem _ hx))
        (fun x hx => hl' x (List.mem_cons_of_mem _ hx)) h2
      refine ⟨?_, h4⟩
      simp only [List.map_cons, h3, Import.eraseRange, expression_eraseRange_eq _ _ hv]

theorem split_at_paren (a a' r r' : List Char) (ha : '(' ∉ a) (ha' : '(' ∉ a')
    (h : a ++ '(' :: r = a' ++ '(' :: r') : a = a' ∧ r = r' :=
  split_at_marker '(' a a' r r' ha ha' h

theorem split_at_params (a a' r r' : List Char) (ha : holds argumentsCloseMark a = false)
    (ha' : holds argumentsCloseMark a' = false)
    (h : a ++ ')' :: ' ' :: '%' :: '}' :: r = a' ++ ')' :: ' ' :: '%' :: '}' :: r') :
    a = a' ∧ '}' :: r = '}' :: r' := by
  induction a generalizing a' with
  | nil =>
    cases a' with
    | nil => exact ⟨rfl, by simpa using h⟩
    | cons c t =>
      exfalso
      rcases t with _ | ⟨c2, _ | ⟨c3, _ | ⟨c4, t4⟩⟩⟩ <;>
        simp only [List.nil_append, List.cons_append, List.cons.injEq, Char.reduceEq,
          false_and, and_false] at h
      obtain ⟨h1, h2, h3, h4, _⟩ := h
      rw [← h1, ← h2, ← h3, ← h4] at ha'
      simp [holds, argumentsCloseMark, List.isPrefixOf] at ha'
  | cons c t ih =>
    cases a' with
    | nil =>
      exfalso
      rcases t with _ | ⟨c2, _ | ⟨c3, _ | ⟨c4, t4⟩⟩⟩ <;>
        simp only [List.nil_append, List.cons_append, List.cons.injEq, Char.reduceEq,
          false_and, and_false] at h
      obtain ⟨h1, h2, h3, h4, _⟩ := h
      rw [h1, h2, h3, h4] at ha
      simp [holds, argumentsCloseMark, List.isPrefixOf] at ha
    | cons c' t' =>
      simp only [List.cons_append, List.cons.injEq] at h
      obtain ⟨h1, h2⟩ := ih t' (holds_tail _ _ _ ha) (holds_tail _ _ _ ha') h.2
      exact ⟨by rw [h.1, h1], h2⟩

theorem nil_ne_templ_append (x : List Char) : [] ≠ "\x7b% templ ".data ++ x := by
  intro h
  have h1 := congrArg List.length h
  have h2 : "\x7b% templ ".data.length = 9 := rfl
  simp only [List.length_nil, List.length_append, h2] at h1
  omega

/-! ## Equations of the text of a tree -/

theorem copies_tab_data (j : Nat) : (copies "\t" j).data = tabChars j := by
  induction j with
  | zero => rfl
  | succ k ih =>
    show ("\t" ++ copies "\t" k).data = _
    rw [String.data_append, ih]
    rfl

theorem tabs_data (j : Nat) : (tabs (j : Int)).data = tabChars j := by
  simp only [tabs, Int.toNat_ofNat, copies_tab_data]

theorem indentWrites_data (j : Nat) (str : String) :
    (concat (indentWrites (j : Int) str)).data = tabChars j ++ str.data := by
  simp only [indentWrites, concat_cons, concat_nil, String.data_append, tabs_data,
    String.append_empty]

theorem nodesText_nil (j : Nat) : nodesText j [] = [] := rfl

theorem nodesText_cons (j : Nat) (c : Node) (l : List Node) :
    nodesText j (c :: l) = Node.text j c ++ nodesText j l := by
  simp only [nodesText, Node.text, nodesWrites, concat_append, String.data_append]

theorem casesText_nil (j : Nat) : casesText j [] = [] := rfl

theorem casesText_cons (j : Nat) (e : Expression) (cs : List Node)
    (l : List CaseExpression) :
    casesText j (CaseExpression.mk e cs :: l)
      = tabChars j ++ ("\x7b% case ".data ++ (e.Value.data ++ (" %\x7d\n".data
          ++ (nodesText (j + 1) cs ++ (tabChars j ++ ("\x7b% endcase %\x7d\n".data
          ++ casesText j l)))))) := by
  simp only [casesText, nodesText, casesWrites, concat_append, String.data_append,
    indentWrites_data, List.append_assoc, ← Nat.cast_succ]

theorem text_stringExpression (j : Nat) (e : Expression) :
    Node.text j (Node.StringExpression e)
      = tabChars j ++ ("\x7b%= ".data ++ (e.Value.data ++ " %\x7d".data)) := by
  simp only [Node.text, Node.writes, indentWrites_data, String.data_append,
    List.append_assoc]

theorem text_call (j : Nat) (name args : Expression) :
    Node.text j (Node.CallTemplateExpression name args)
      = tabChars j ++ ("\x7b% call ".data ++ (name.Value.data ++ ('(' :: (args.Value.data
          ++ ") %\x7d".data)))) := by
  simp only [Node.text, Node.writes, indentWrites_data, String.data_append,
    List.append_assoc]
  rfl

theorem text_for (j : Nat) (e : Expression) (cs : List Node) :
    Node.text j (Node.ForExpression e cs)
      = tabChars j ++ ("\x7b% for ".data ++ (e.Value.data ++ (" %\x7d\n".data
          ++ (nodesText (j + 1) cs ++ (tabChars j ++ "\x7b% endfor %\x7d\n".data))))) := by
  simp only [Node.text, nodesText, Node.writes, concat_append, indentWrites_data,
    String.data_append, List.append_assoc, ← Nat.cast_succ]

theorem text_if (j : Nat) (e : Expression) (t el : List Node) :
    Node.text j (Node.IfExpression e t el)
      = tabChars j ++ ("\x7b% if ".data ++ (e.Value.data ++ (" %\x7d\n".data
          ++ (nodesText (j + 1) t
          ++ ((if el.length > 0 then
              tabChars j ++ ("\x7b% else %\x7d\n".data ++ nodesText (j + 1) el) else [])
          ++ (tabChars j ++ "\x7b% endif %\x7d\n".data)))))) := by
  by_cases h : el.length > 0 <;>
  simp only [Node.text, nodesText, Node.writes, concat_append, indentWrites_data, h,
    ↓reduceIte, concat_nil, String.data_append, List.append_assoc, ← Nat.cast_succ]

theorem text_switch (j : Nat) (e : Expression) (cases : List CaseExpression)
    (d : List Node) :
    Node.text j (Node.SwitchExpression e cases d)
      = tabChars j ++ ("\x7b% switch ".data ++ (e.Value.data ++ (" %\x7d\n".data
          ++ (casesText (j + 1) cases
          ++ ((if d.length > 0 then
              tabChars (j + 1) ++ ("\x7b% default %\x7d\n".data ++ (nodesText (j + 1 + 1) d
                ++ (tabChars (j + 1) ++ "\x7b% enddefault %\x7d\n".data))) else [])
          ++ (tabChars j ++ "\x7b% endswitch %\x7d\n".data)))))) := by
  by_cases h : d.length > 0 <;>
  simp only [Node.text, nodesText, casesText, Node.writes, concat_append,
    indentWrites_data, h, ↓reduceIte, concat_nil, String.data_append, List.append_assoc,
    ← Nat.cast_succ]

theorem attributesText_nil : attributesText [] = [] := rfl

theorem attributesText_cons (a : Attribute) (l : List Attribute) :
    attributesText (a :: l) = ' ' :: (a.String.data ++ attributesText l) := by
  simp only [attributesText, attributesWrites, concat_cons, String.data_append]
  rfl

theorem string_constantAttribute (name value : String) :
    (Attribute.ConstantAttribute name value).String.data
      = name.data ++ ('"' :: ((htmlEscapeString value).data ++ ['"'])) := by
  simp only [Attribute.String, String.data_append, List.append_assoc]
  rfl

theorem string_expressionAttribute (name : String) (v : StringExpression) :
    (Attribute.ExpressionAttribute name v).String.data
      = name.data ++ ('{' :: ("%= ".data ++ (v.Expression.Value.data ++ " %\x7d".data))) := by
  simp only [Attribute.String, String.data_append, List.append_assoc]
  rfl

theorem text_block_childless (j : Nat) (name : String) (attrs : List Attribute)
    (cs : List Node) (hb : isBlockElement name = true) (hc : cs.length = 0) :
    Node.text j (Node.Element name attrs cs)
      = '\n' :: (tabChars j ++ ('<' :: (name.data ++ (attributesText attrs
          ++ (tabChars j ++ "/>\n".data))))) := by
  simp only [Node.text, Node.writes, hb, hc, ↓reduceIte, concat_append, concat_cons,
    concat_nil, indentWrites_data, String.data_append, List.append_assoc, attributesText,
    String.append_empty]
  rfl

theorem text_block_children (j : Nat) (name : String) (attrs : List Attribute)
    (cs : List Node) (hb : isBlockElement name = true) (hc : ¬ cs.length = 0) :
    Node.text j (Node.Element name attrs cs)
      = '\n' :: (tabChars j ++ ('<' :: (name.data ++ (attributesText attrs
          ++ ('>' :: '\n' :: (nodesText (j + 1) cs ++ ('\n' :: (tabChars j
          ++ ('<' :: '/' :: (name.data ++ ['>'])))))))))) := by
  simp only [Node.text, nodesText, Node.writes, hb, hc, ↓reduceIte, concat_append,
    concat_cons, concat_nil, indentWrites_data, String.data_append, List.append_assoc,
    attributesText, String.append_empty, ← Nat.cast_succ]
  rfl

theorem text_inline_childless (j : Nat) (name : String) (attrs : List Attribute)
    (cs : List Node) (hb : isBlockElement name = false) (hc : cs.length = 0) :
    Node.text j (Node.Element name attrs cs)
      = '<' :: (name.data ++ (attributesText attrs ++ (tabChars j ++ "/>".data))) := by
  have h0 := indentWrites_data 0
  simp only [Nat.cast_zero] at h0
  simp only [Node.text, Node.writes, hb, hc, ↓reduceIte, concat_append, concat_cons,
    concat_nil, indentWrites_data, h0, String.data_append, List.append_assoc,
    attributesText, String.append_empty, Bool.false_eq_true]
  rfl

theorem text_inline_children (j : Nat) (name : String) (attrs : List Attribute)
    (cs : List Node) (hb : isBlockElement name = false) (hc : ¬ cs.length = 0) :
    Node.text j (Node.Element name attrs cs)
      = '<' :: (name.data ++ (attributesText attrs ++ (tabChars j ++ ('>' ::
          (nodesText 0 cs ++ ('<' :: '/' :: (name.data ++ ['>']))))))) := by
  have h0 := indentWrites_data 0
  have h1 : nodesText 0 cs = (concat (nodesWrites 0 cs)).data := rfl
  simp only [Nat.cast_zero] at h0
  simp only [Node.text, h1, Node.writes, hb, hc, ↓reduceIte, concat_append, concat_cons,
    concat_nil, indentWrites_data, h0, String.data_append, List.append_assoc,
    attributesText, String.append_empty, Bool.false_eq_true]
  rfl

/-! ## Names, escaped values and attributes can be read back -/

theorem split_at_delim (p : Char → Bool) (a a' : List Char) (d d' : Char)
    (t t' : List Char) (ha : ∀ c ∈ a, p c = false) (ha' : ∀ c ∈ a', p c = false)
    (h : a ++ d :: t = a' ++ d' :: t') (hd : p d = true) (hd' : p d' = true) :
    a = a' ∧ d :: t = d' :: t' := by
  induction a generalizing a' with
  | nil =>
    cases a' with
    | nil => exact ⟨rfl, h⟩
    | cons c t0 =>
      simp only [List.nil_append, List.cons_append, List.cons.injEq] at h
      rw [h.1, ha' c (List.mem_cons_self _ _)] at hd
      exact absurd hd (by decide)
  | cons c t0 ih =>
    cases a' with
    | nil =>
      simp only [List.nil_append, List.cons_append, List.cons.injEq] at h
      rw [← h.1, ha c (List.mem_cons_self _ _)] at hd'
      exact absurd hd' (by decide)
    | cons c' t0' =>
      simp only [List.cons_append, List.cons.injEq] at h
      obtain ⟨h1, h2⟩ := ih t0' (fun x hx => ha x (List.mem_cons_of_mem _ hx))
        (fun x hx => ha' x (List.mem_cons_of_mem _ hx)) h.2
      exact ⟨by rw [h.1, h1], h2⟩

theorem escapeChars_cons_data (c : Char) (l : List Char) :
    (escapeChars (c :: l)).data = (htmlEscaper c).data ++ (escapeChars l).data := by
  simp only [escapeChars, String.data_append]

theorem htmlEscaper_cases (c : Char) :
    (c = '&' ∧ (htmlEscaper c).data = ['&', 'a', 'm', 'p', ';']) ∨
    (c = '\'' ∧ (htmlEscaper c).data = ['&', '#', '3', '9', ';']) ∨
    (c = '<' ∧ (htmlEscaper c).data = ['&', 'l', 't', ';']) ∨
    (c = '>' ∧ (htmlEscaper c).data = ['&', 'g', 't', ';']) ∨
    (c = '"' ∧ (htmlEscaper c).data = ['&', '#', '3', '4', ';']) ∨
    (c ≠ '&' ∧ (htmlEscaper c).data = [c]) := by
  unfold htmlEscaper
  split_ifs with h1 h2 h3 h4 h5
  · exact Or.inl ⟨h1, rfl⟩
  · exact Or.inr (Or.inl ⟨h2, rfl⟩)
  · exact Or.inr (Or.inr (Or.inl ⟨h3, rfl⟩))
  · exact Or.inr (Or.inr (Or.inr (Or.inl ⟨h4, rfl⟩)))
  · exact Or.inr (Or.inr (Or.inr (Or.inr (Or.inl ⟨h5, rfl⟩))))
  · exact Or.inr (Or.inr (Or.inr (Or.inr (Or.inr ⟨h1, rfl⟩))))

theorem htmlEscaper_inj (c c' : Char) (r r' : List Char)
    (h : (htmlEscaper c).data ++ r = (htmlEscaper c').data ++ r') : c = c' ∧ r = r' := by
  rcases htmlEscaper_cases c with ⟨h1, e1⟩ | ⟨h1, e1⟩ | ⟨h1, e1⟩ | ⟨h1, e1⟩ | ⟨h1, e1⟩ |
    ⟨h1, e1⟩ <;>
  rcases htmlEscaper_cases c' with ⟨h2, e2⟩ | ⟨h2, e2⟩ | ⟨h2, e2⟩ | ⟨h2, e2⟩ | ⟨h2, e2⟩ |
    ⟨h2, e2⟩ <;>
  rw [e1, e2] at h <;>
  simp only [List.cons_append, List.nil_append, List.cons.injEq, Char.reduceEq, false_and,
    and_false, true_and] at h <;>
  first
    | exact ⟨by rw [h1, h2], h⟩
    | exact absurd h.1.symm h2
    | exact absurd h.1 h1
    | exact ⟨h.1, h.2⟩

theorem escapeChars_inj (l l' : List Char)
    (h : (escapeChars l).data = (escapeChars l').data) : l = l' := by
  induction l generalizing l' with
  | nil =>
    cases l' with
    | nil => rfl
    | cons c t =>
      rw [escapeChars_cons_data] at h
      rcases htmlEscaper_cases c with ⟨_, e⟩ | ⟨_, e⟩ | ⟨_, e⟩ | ⟨_, e⟩ | ⟨_, e⟩ | ⟨_, e⟩ <;>
        rw [e] at h <;> exact absurd h (by simp [escapeChars])
  | cons c t ih =>
    cases l' with
    | nil =>
      rw [escapeChars_cons_data] at h
      rcases htmlEscaper_cases c with ⟨_, e⟩ | ⟨_, e⟩ | ⟨_, e⟩ | ⟨_, e⟩ | ⟨_, e⟩ | ⟨_, e⟩ <;>
        rw [e] at h <;> exact absurd h (by simp [escapeChars])
    | cons c' t' =>
      rw [escapeChars_cons_data, escapeChars_cons_data] at h
      obtain ⟨h1, h2⟩ := htmlEscaper_inj c c' _ _ h
      rw [h1, ih t' h2]

theorem plainTag_all (s : String) (h : plainTag s = true) :
    ∀ c ∈ s.data, tagEnd c = false := by
  simp only [plainTag, Bool.and_eq_true, List.all_eq_true, Bool.not_eq_true'] at h
  exact h.2

theorem plainAttributeName_all (s : String) (h : plainAttributeName s = true) :
    ∀ c ∈ s.data, attributeNameEnd c = false := by
  simp only [plainAttributeName, List.all_eq_true, Bool.not_eq_true'] at h
  exact h

theorem attribute_inj (a a' : Attribute) (r r' : List Char) (ha : a.plain = true)
    (ha' : a'.plain = true) (h : a.String.data ++ r = a'.String.data ++ r') :
    a.eraseRange = a'.eraseRange ∧ r = r' := by
  cases a with
  | ConstantAttribute name v =>
    cases a' with
    | ConstantAttribute name' v' =>
      simp only [string_constantAttribute, List.append_assoc, List.cons_append,
        List.nil_append] at h
      obtain ⟨hn, h1⟩ := split_at_delim attributeNameEnd _ _ _ _ _ _
        (plainAttributeName_all _ ha) (plainAttributeName_all _ ha') h rfl rfl
      simp only [List.cons.injEq, true_and] at h1
      obtain ⟨hv, h2⟩ := split_at_marker '"' _ _ _ _ (escapeChars_clean v.data).2.2
        (escapeChars_clean v'.data).2.2 h1
      have hv' := escapeChars_inj _ _ hv
      exact ⟨by rw [String.ext hn, String.ext hv'], h2⟩
    | ExpressionAttribute name' e' =>
      simp only [Attribute.plain, Bool.and_eq_true] at ha'
      simp only [string_constantAttribute, string_expressionAttribute, List.append_assoc,
        List.cons_append, List.nil_append] at h
      obtain ⟨_, h1⟩ := split_at_delim attributeNameEnd _ _ _ _ _ _
        (plainAttributeName_all _ ha) (plainAttributeName_all _ ha'.1) h rfl rfl
      exact absurd (List.cons.inj h1).1 (by decide)
  | ExpressionAttribute name e =>
    simp only [Attribute.plain, Bool.and_eq_true] at ha
    cases a' with
    | ConstantAttribute name' v' =>
      simp only [string_constantAttribute, string_expressionAttribute, List.append_assoc,
        List.cons_append, List.nil_append] at h
      obtain ⟨_, h1⟩ := split_at_delim attributeNameEnd _ _ _ _ _ _
        (plainAttributeName_all _ ha.1) (plainAttributeName_all _ ha') h rfl rfl
      exact absurd (List.cons.inj h1).1 (by decide)
    | ExpressionAttribute name' e' =>
      simp only [Attribute.plain, Bool.and_eq_true] at ha'
      simp only [string_expressionAttribute, List.append_assoc, List.cons_append,
        List.nil_append] at h
      obtain ⟨hn, h1⟩ := split_at_delim attributeNameEnd _ _ _ _ _ _
        (plainAttributeName_all _ ha.1) (plainAttributeName_all _ ha'.1) h rfl rfl
      simp only [List.cons.injEq, true_and] at h1
      obtain ⟨hv, h2⟩ := split_at_close _ _ _ _ ((plainText_iff _).mp ha.2)
        ((plainText_iff _).mp ha'.2) h1
      simp only [List.cons.injEq, true_and] at h2
      refine ⟨?_, h2⟩
      simp only [Attribute.eraseRange, String.ext hn, expression_eraseRange_eq _ _ hv]

theorem attributes_inj (l l' : List Attribute) (r r' : List Char)
    (hl : ∀ a ∈ l, a.plain = true) (hl' : ∀ a ∈ l', a.plain = true)
    (hr : ∀ t, r ≠ ' ' :: t) (hr' : ∀ t, r' ≠ ' ' :: t)
    (h : attributesText l ++ r = attributesText l' ++ r') :
    l.map Attribute.eraseRange = l'.map Attribute.eraseRange ∧ r = r' := by
  induction l generalizing l' with
  | nil =>
    cases l' with
    | nil => exact ⟨rfl, h⟩
    | cons a' t' =>
      simp only [attributesText_nil, attributesText_cons, List.nil_append,
        List.cons_append] at h
      exact absurd h (hr _)
  | cons a t ih =>
    cases l' with
    | nil =>
      simp only [attributesText_nil, attributesText_cons, List.nil_append,
        List.cons_append] at h
      exact absurd h.symm (hr' _)
    | cons a' t' =>
      simp only [attributesText_cons, List.cons_append, List.cons.injEq, true_and,
        List.append_assoc] at h
      obtain ⟨h1, h2⟩ := attribute_inj a a' _ _ (hl a (List.mem_cons_self _ _))
        (hl' a' (List.mem_cons_self _ _)) h
      obtain ⟨h3, h4⟩ := ih t' (fun x hx => hl x (List.mem_cons_of_mem _ hx))
        (fun x hx => hl' x (List.mem_cons_of_mem _ hx)) h2
      exact ⟨by simp only [List.map_cons, h1, h3], h4⟩

theorem textKind_tabs (j : Nat) (y : List Char) :
    textKind j (tabChars j ++ '{' :: y) = clauseKind ('{' :: y) := by
  cases j with
  | zero => rfl
  | succ k =>
    have h : (tabChars (k + 1) ++ '{' :: y).drop (k + 1) = '{' :: y := by
      have hl : (tabChars (k + 1)).length = k + 1 := by simp [tabChars]
      exact List.drop_left' hl
    show clauseKind ((tabChars (k + 1) ++ '{' :: y).drop (k + 1)) = _
    rw [h]

/-! ## The start of the text of a node -/

theorem plainTag_head (s : String) (h : plainTag s = true) :
    ∃ c t, s.data = c :: t ∧ c ≠ '/' := by
  have hall := plainTag_all s h
  simp only [plainTag, Bool.and_eq_true, decide_eq_true_eq] at h
  cases hd : s.data with
  | nil => exact absurd hd h.1
  | cons c t =>
    refine ⟨c, t, rfl, ?_⟩
    intro hc
    have := hall c (by rw [hd]; exact List.mem_cons_self _ _)
    rw [hc] at this
    exact absurd this (by decide)

theorem text_kind (n : Node) (hn : Node.plain n = true) (j : Nat) (r : List Char) :
    textKind j (Node.text j n ++ r) = Node.kind n := by
  cases n with
  | Whitespace v => simp [Node.plain] at hn
  | Element name attrs cs =>
    cases hb : isBlockElement name <;> by_cases hc : cs.length = 0
    · rw [text_inline_childless j name attrs cs hb hc]; rfl
    · rw [text_inline_children j name attrs cs hb hc]; rfl
    · rw [text_block_childless j name attrs cs hb hc]; rfl
    · rw [text_block_children j name attrs cs hb hc]; rfl
  | StringExpression e =>
    rw [text_stringExpression, List.append_assoc]
    exact textKind_tabs j _
  | CallTemplateExpression name args =>
    rw [text_call, List.append_assoc]
    exact textKind_tabs j _
  | IfExpression e t el =>
    rw [text_if, List.append_assoc]
    exact textKind_tabs j _
  | SwitchExpression e cases d =>
    rw [text_switch, List.append_assoc]
    exact textKind_tabs j _
  | ForExpression e cs =>
    rw [text_for, List.append_assoc]
    exact textKind_tabs j _

theorem text_shape (n : Node) (hn : Node.plain n = true) (j : Nat) (r : List Char) :
    (∃ y, Node.text j n ++ r = tabChars j ++ '{' :: y) ∨
    (∃ c y, Node.text j n ++ r = '<' :: c :: y ∧ c ≠ '/') ∨
    (∃ c y, Node.text j n ++ r = '\n' :: (tabChars j ++ '<' :: c :: y) ∧ c ≠ '/') := by
  cases n with
  | Whitespace v => simp [Node.plain] at hn
  | Element name attrs cs =>
    simp only [Node.plain, Bool.and_eq_true] at hn
    obtain ⟨c, t, hd, hc⟩ := plainTag_head name hn.1.1
    cases hb : isBlockElement name <;> by_cases hl : cs.length = 0
    · rw [text_inline_childless j name attrs cs hb hl, hd]
      simp only [List.cons_append, List.append_assoc]
      exact Or.inr (Or.inl ⟨c, _, rfl, hc⟩)
    · rw [text_inline_children j name attrs cs hb hl, hd]
      simp only [List.cons_append, List.append_assoc]
      exact Or.inr (Or.inl ⟨c, _, rfl, hc⟩)
    · rw [text_block_childless j name attrs cs hb hl, hd]
      simp only [List.cons_append, List.append_assoc]
      exact Or.inr (Or.inr ⟨c, _, rfl, hc⟩)
    · rw [text_block_children j name attrs cs hb hl, hd]
      simp only [List.cons_append, List.append_assoc]
      exact Or.inr (Or.inr ⟨c, _, rfl, hc⟩)
  | StringExpression e =>
    exact Or.inl ⟨_, by rw [text_stringExpression, List.append_assoc]; rfl⟩
  | CallTemplateExpression name args =>
    exact Or.inl ⟨_, by rw [text_call, List.append_assoc]; rfl⟩
  | IfExpression e t el =>
    exact Or.inl ⟨_, by rw [text_if, List.append_assoc]; rfl⟩
  | SwitchExpression e cases d =>
    exact Or.inl ⟨_, by rw [text_switch, List.append_assoc]; rfl⟩
  | ForExpression e cs =>
    exact Or.inl ⟨_, by rw [text_for, List.append_assoc]; rfl⟩

theorem tabChars_succ (j : Nat) : tabChars (j + 1) = tabChars j ++ ['\t'] := by
  simp only [tabChars, List.replicate_succ']

theorem tabChars_head (j : Nat) (c : Char) (x y : List Char) (hc : c ≠ '\t')
    (h : tabChars j ++ c :: x = tabChars (j + 1) ++ y) : False := by
  rw [tabChars_succ, List.append_assoc] at h
  have h1 := List.append_cancel_left h
  simp only [List.singleton_append, List.cons.injEq] at h1
  exact hc h1.1

theorem tabChars_cons_ne (j : Nat) (c d : Char) (x y : List Char) (hc : c ≠ d)
    (hd : d ≠ '\t') : tabChars j ++ c :: x ≠ d :: y := by
  cases j with
  | zero =>
    intro h
    exact hc (List.cons.inj h).1
  | succ k =>
    intro h
    have h1 : tabChars (k + 1) = '\t' :: tabChars k := rfl
    rw [h1] at h
    exact hd (List.cons.inj h).1.symm

theorem stop_brace (j : Nat) (x : List Char) : Stop (j + 1) (tabChars j ++ '{' :: x) := by
  intro n rest hn h
  rcases text_shape n hn (j + 1) rest with ⟨y, hy⟩ | ⟨c, y, hy, _⟩ | ⟨c, y, hy, _⟩
  · rw [hy] at h
    exact tabChars_head j '{' x _ (by decide) h
  · rw [hy] at h
    exact tabChars_cons_ne j '{' '<' x _ (by decide) (by decide) h
  · rw [hy] at h
    exact tabChars_cons_ne j '{' '\n' x _ (by decide) (by decide) h

theorem stop_inline_close (x : List Char) : Stop 0 ('<' :: '/' :: x) := by
  intro n rest hn h
  rcases text_shape n hn 0 rest with ⟨y, hy⟩ | ⟨c, y, hy, hc⟩ | ⟨c, y, hy, _⟩
  · rw [hy] at h
    exact absurd (List.cons.inj h).1 (by decide)
  · rw [hy] at h
    simp only [List.cons.injEq] at h
    exact hc h.2.1.symm
  · rw [hy] at h
    exact absurd (List.cons.inj h).1 (by decide)

theorem stop_block_close (j : Nat) (x : List Char) :
    Stop (j + 1) ('\n' :: (tabChars j ++ '<' :: '/' :: x)) := by
  intro n rest hn h
  rcases text_shape n hn (j + 1) rest with ⟨y, hy⟩ | ⟨c, y, hy, _⟩ | ⟨c, y, hy, _⟩
  · rw [hy] at h
    exact tabChars_cons_ne (j + 1) '{' '\n' _ _ (by decide) (by decide) h.symm
  · rw [hy] at h
    exact absurd (List.cons.inj h).1 (by decide)
  · rw [hy] at h
    exact tabChars_head j '<' _ _ (by decide) (List.cons.inj h).2

/-! ## Nodes can be read back -/

theorem stringExpression_inj (e e' : Expression) (j : Nat) (r r' : List Char)
    (hn : plainText e.Value = true) (hn' : plainText e'.Value = true)
    (h : Node.text j (Node.StringExpression e) ++ r
      = Node.text j (Node.StringExpression e') ++ r') :
    Node.eraseRange (Node.StringExpression e) = Node.eraseRange (Node.StringExpression e')
      ∧ r = r' := by
  simp only [text_stringExpression, List.append_assoc, List.cons_append,
    List.nil_append] at h
  have h1 := List.append_cancel_left h
  simp only [List.cons.injEq, true_and] at h1
  obtain ⟨hv, h2⟩ := split_at_close _ _ _ _ ((plainText_iff _).mp hn)
    ((plainText_iff _).mp hn') h1
  simp only [List.cons.injEq, true_and] at h2
  exact ⟨by simp only [Node.eraseRange, expression_eraseRange_eq _ _ hv], h2⟩

theorem call_inj (name args name' args' : Expression) (j : Nat) (r r' : List Char)
    (hn : (plainHead name.Value && plainArguments args.Value) = true)
    (hn' : (plainHead name'.Value && plainArguments args'.Value) = true)
    (h : Node.text j (Node.CallTemplateExpression name args) ++ r
      = Node.text j (Node.CallTemplateExpression name' args') ++ r') :
    Node.eraseRange (Node.CallTemplateExpression name args)
      = Node.eraseRange (Node.CallTemplateExpression name' args') ∧ r = r' := by
  simp only [Bool.and_eq_true, plainHead_iff, plainArguments_iff] at hn hn'
  simp only [text_call, List.append_assoc, List.cons_append, List.nil_append] at h
  have h1 := List.append_cancel_left h
  simp only [List.cons.injEq, true_and] at h1
  obtain ⟨hname, h2⟩ := split_at_paren _ _ _ _ hn.1 hn'.1 h1
  obtain ⟨hargs, h3⟩ := split_at_params _ _ _ _ hn.2 hn'.2 h2
  simp only [List.cons.injEq, true_and] at h3
  exact ⟨by simp only [Node.eraseRange, expression_eraseRange_eq _ _ hname,
    expression_eraseRange_eq _ _ hargs], h3⟩

theorem stop_ite (j : Nat) (c : Prop) [Decidable c] (x y : List Char) :
    Stop (j + 1) ((if c then tabChars j ++ '{' :: x else []) ++ (tabChars j ++ '{' :: y)) := by
  by_cases h : c
  · simp only [h, ↓reduceIte, List.append_assoc, List.cons_append]
    exact stop_brace j _
  · simp only [h, ↓reduceIte, List.nil_append]
    exact stop_brace j _

theorem nodesEraseRange_eq_of_empty (l l' : List Node) (h : ¬ l.length > 0)
    (h' : ¬ l'.length > 0) : nodesEraseRange l = nodesEraseRange l' := by
  have h1 : l = [] := List.length_eq_zero.mp (by omega)
  have h2 : l' = [] := List.length_eq_zero.mp (by omega)
  rw [h1, h2]

theorem if_inj (e : Expression) (t el : List Node) (ht : NodesInj t) (hel : NodesInj el) :
    NodeInj (Node.IfExpression e t el) := by
  intro n' j r r' hn hn' h
  have hk : Node.kind (Node.IfExpression e t el) = Node.kind n' := by
    rw [← text_kind _ hn j r, ← text_kind n' hn' j r', h]
  cases n' with
  | IfExpression e' t' el' =>
    simp only [Node.plain, Bool.and_eq_true, plainText_iff] at hn hn'
    simp only [text_if, List.append_assoc, List.cons_append, List.nil_append] at h
    have h1 := List.append_cancel_left h
    simp only [List.cons.injEq, true_and] at h1
    obtain ⟨hv, h2⟩ := split_at_close _ _ _ _ hn.1.1 hn'.1.1 h1
    simp only [List.cons.injEq, true_and] at h2
    obtain ⟨hT, h3⟩ := ht t' (j + 1) _ _ hn.1.2 hn'.1.2 (stop_ite j _ _ _)
      (stop_ite j _ _ _) h2
    by_cases hl : el.length > 0 <;> by_cases hl' : el'.length > 0 <;>
      simp only [hl, hl', ↓reduceIte, List.append_assoc, List.cons_append,
        List.nil_append] at h3 <;>
      have h4 := List.append_cancel_left h3 <;>
      simp only [List.cons.injEq, true_and, Char.reduceEq, false_and, and_false] at h4
    · obtain ⟨hE, h5⟩ := hel el' (j + 1) _ _ hn.2 hn'.2 (stop_brace j _) (stop_brace j _) h4
      have h6 := List.append_cancel_left h5
      simp only [List.cons.injEq, true_and] at h6
      exact ⟨by simp only [Node.eraseRange, expression_eraseRange_eq _ _ hv, hT, hE], h6⟩
    · exact ⟨by simp only [Node.eraseRange, expression_eraseRange_eq _ _ hv, hT,
        nodesEraseRange_eq_of_empty el el' hl hl'], h4⟩
  | Whitespace _ => simp [Node.kind] at hk
  | Element _ _ _ => simp [Node.kind] at hk
  | StringExpression _ => simp [Node.kind] at hk
  | CallTemplateExpression _ _ => simp [Node.kind] at hk
  | SwitchExpression _ _ _ => simp [Node.kind] at hk
  | ForExpression _ _ => simp [Node.kind] at hk

theorem for_inj (e : Expression) (cs : List Node) (hcs : NodesInj cs) :
    NodeInj (Node.ForExpression e cs) := by
  intro n' j r r' hn hn' h
  have hk : Node.kind (Node.ForExpression e cs) = Node.kind n' := by
    rw [← text_kind _ hn j r, ← text_kind n' hn' j r', h]
  cases n' with
  | ForExpression e' cs' =>
    simp only [Node.plain, Bool.and_eq_true, plainText_iff] at hn hn'
    simp only [text_for, List.append_assoc, List.cons_append, List.nil_append] at h
    have h1 := List.append_cancel_left h
    simp only [List.cons.injEq, true_and] at h1
    obtain ⟨hv, h2⟩ := split_at_close _ _ _ _ hn.1 hn'.1 h1
    simp only [List.cons.injEq, true_and] at h2
    obtain ⟨hC, h3⟩ := hcs cs' (j + 1) _ _ hn.2 hn'.2 (stop_brace j _) (stop_brace j _) h2
    have h4 := List.append_cancel_left h3
    simp only [List.cons.injEq, true_and] at h4
    exact ⟨by simp only [Node.eraseRange, expression_eraseRange_eq _ _ hv, hC], h4⟩
  | Whitespace _ => simp [Node.kind] at hk
  | Element _ _ _ => simp [Node.kind] at hk
  | StringExpression _ => simp [Node.kind] at hk
  | CallTemplateExpression _ _ => simp [Node.kind] at hk
  | SwitchExpression _ _ _ => simp [Node.kind] at hk
  | IfExpression _ _ _ => simp [Node.kind] at hk

theorem nodes_nil_inj : NodesInj [] := by
  intro l' j r r' _ hp' hs _ h
  cases l' with
  | nil => exact ⟨rfl, by simpa only [nodesText_nil, List.nil_append] using h⟩
  | cons c' t' =>
    simp only [nodesPlain, Bool.and_eq_true] at hp'
    simp only [nodesText_nil, nodesText_cons, List.nil_append, List.append_assoc] at h
    exact absurd h (hs c' _ hp'.1)

theorem nodes_cons_inj (c : Node) (l : List Node) (hc : NodeInj c) (hl : NodesInj l) :
    NodesInj (c :: l) := by
  intro l' j r r' hp hp' hs hs' h
  simp only [nodesPlain, Bool.and_eq_true] at hp
  cases l' with
  | nil =>
    simp only [nodesText_nil, nodesText_cons, List.nil_append, List.append_assoc] at h
    exact absurd h.symm (hs' c _ hp.1)
  | cons c' t' =>
    simp only [nodesPlain, Bool.and_eq_true] at hp'
    simp only [nodesText_cons, List.append_assoc] at h
    obtain ⟨h1, h2⟩ := hc c' j _ _ hp.1 hp'.1 h
    obtain ⟨h3, h4⟩ := hl t' j r r' hp.2 hp'.2 hs hs' h2
    exact ⟨by simp only [nodesEraseRange, h1, h3], h4⟩

theorem cases_nil_inj : CasesInj [] := by
  intro l' j r r' _ _ hs _ h
  cases l' with
  | nil => exact ⟨rfl, by simpa only [casesText_nil, List.nil_append] using h⟩
  | cons c' t' =>
    cases c' with
    | mk e' cs' =>
      simp only [casesText_nil, casesText_cons, List.nil_append, List.append_assoc] at h
      exact absurd h (hs _)

theorem cases_cons_inj (e : Expression) (cs : List Node) (l : List CaseExpression)
    (hcs : NodesInj cs) (hl : CasesInj l) : CasesInj (CaseExpression.mk e cs :: l) := by
  intro l' j r r' hp hp' hs hs' h
  simp only [casesPlain, Bool.and_eq_true, plainText_iff] at hp
  cases l' with
  | nil =>
    simp only [casesText_nil, casesText_cons, List.nil_append, List.append_assoc] at h
    exact absurd h.symm (hs' _)
  | cons c' t' =>
    cases c' with
    | mk e' cs' =>
      simp only [casesPlain, Bool.and_eq_true, plainText_iff] at hp'
      simp only [casesText_cons, List.append_assoc, List.cons_append, List.nil_append] at h
      have h1 := List.append_cancel_left h
      simp only [List.cons.injEq, true_and] at h1
      obtain ⟨hv, h2⟩ := split_at_close _ _ _ _ hp.1.1 hp'.1.1 h1
      simp only [List.cons.injEq, true_and] at h2
      obtain ⟨hC, h3⟩ := hcs cs' (j + 1) _ _ hp.1.2 hp'.1.2 (stop_brace j _)
        (stop_brace j _) h2
      have h4 := List.append_cancel_left h3
      simp only [List.cons.injEq, true_and] at h4
      obtain ⟨hL, h5⟩ := hl t' j r r' hp.2 hp'.2 hs hs' h4
      exact ⟨by simp only [casesEraseRange, expression_eraseRange_eq _ _ hv, hC, hL], h5⟩

theorem caseStop_ite (j : Nat) (c : Prop) [Decidable c] (x y : List Char) :
    CaseStop (j + 1)
      ((if c then tabChars (j + 1) ++ '{' :: '%' :: ' ' :: 'd' :: x else [])
        ++ (tabChars j ++ '{' :: y)) := by
  intro w h
  by_cases hc : c
  · simp only [hc, ↓reduceIte, List.append_assoc, List.cons_append] at h
    have h1 := List.append_cancel_left h
    simp only [List.cons.injEq, true_and, Char.reduceEq, false_and, and_false] at h1
  · simp only [hc, ↓reduceIte, List.nil_append] at h
    exact tabChars_head j '{' _ _ (by decide) h

theorem switch_inj (e : Expression) (cases : List CaseExpression) (d : List Node)
    (hcases : CasesInj cases) (hd : NodesInj d) :
    NodeInj (Node.SwitchExpression e cases d) := by
  intro n' j r r' hn hn' h
  have hk : Node.kind (Node.SwitchExpression e cases d) = Node.kind n' := by
    rw [← text_kind _ hn j r, ← text_kind n' hn' j r', h]
  cases n' with
  | SwitchExpression e' cases' d' =>
    simp only [Node.plain, Bool.and_eq_true, plainText_iff] at hn hn'
    simp only [text_switch, List.append_assoc, List.cons_append, List.nil_append] at h
    have h1 := List.append_cancel_left h
    simp only [List.cons.injEq, true_and] at h1
    obtain ⟨hv, h2⟩ := split_at_close _ _ _ _ hn.1.1 hn'.1.1 h1
    simp only [List.cons.injEq, true_and] at h2
    obtain ⟨hC, h3⟩ := hcases cases' (j + 1) _ _ hn.1.2 hn'.1.2 (caseStop_ite j _ _ _)
      (caseStop_ite j _ _ _) h2
    by_cases hl : d.length > 0 <;> by_cases hl' : d'.length > 0 <;>
      simp only [hl, hl', ↓reduceIte, List.append_assoc, List.cons_append,
        List.nil_append] at h3
    · have h4 := List.append_cancel_left h3
      simp only [List.cons.injEq, true_and] at h4
      obtain ⟨hD, h5⟩ := hd d' (j + 1 + 1) _ _ hn.2 hn'.2 (stop_brace (j + 1) _)
        (stop_brace (j + 1) _) h4
      have h6 := List.append_cancel_left h5
      simp only [List.cons.injEq, true_and] at h6
      have h7 := List.append_cancel_left h6
      simp only [List.cons.injEq, true_and] at h7
      exact ⟨by simp only [Node.eraseRange, expression_eraseRange_eq _ _ hv, hC, hD], h7⟩
    · exact absurd h3.symm (fun h0 => tabChars_head j '{' _ _ (by decide) h0)
    · exact absurd h3 (fun h0 => tabChars_head j '{' _ _ (by decide) h0)
    · have h4 := List.append_cancel_left h3
      simp only [List.cons.injEq, true_and] at h4
      exact ⟨by simp only [Node.eraseRange, expression_eraseRange_eq _ _ hv, hC,
        nodesEraseRange_eq_of_empty d d' hl hl'], h4⟩
  | Whitespace _ => simp [Node.kind] at hk
  | Element _ _ _ => simp [Node.kind] at hk
  | StringExpression _ => simp [Node.kind] at hk
  | CallTemplateExpression _ _ => simp [Node.kind] at hk
  | IfExpression _ _ _ => simp [Node.kind] at hk
  | ForExpression _ _ => simp [Node.kind] at hk

theorem text_element (j : Nat) (name : String) (attrs : List Attribute) (cs : List Node) :
    Node.text j (Node.Element name attrs cs)
      = (if isBlockElement name then '\n' :: tabChars j else [])
        ++ ('<' :: (name.data ++ (attributesText attrs
        ++ elementTail (isBlockElement name) j name.data cs))) := by
  cases hb : isBlockElement name <;> by_cases hc : cs.length = 0
  · rw [text_inline_childless j name attrs cs hb hc]
    simp only [elementTail, hc, ↓reduceIte, Bool.false_eq_true, List.nil_append]
  · rw [text_inline_children j name attrs cs hb hc]
    simp only [elementTail, hc, ↓reduceIte, Bool.false_eq_true, List.nil_append]
  · rw [text_block_childless j name attrs cs hb hc]
    simp only [elementTail, hc, ↓reduceIte, List.cons_append, List.append_assoc]
  · rw [text_block_children j name attrs cs hb hc]
    simp only [elementTail, hc, ↓reduceIte, List.cons_append, List.append_assoc]

theorem tabChars_append_head (j : Nat) (c : Char) (x : List Char) :
    ∃ d t, tabChars j ++ c :: x = d :: t ∧ (d = '\t' ∨ d = c) := by
  cases j with
  | zero => exact ⟨c, x, rfl, Or.inr rfl⟩
  | succ k => exact ⟨'\t', tabChars k ++ c :: x, rfl, Or.inl rfl⟩

theorem elementTail_head (b : Bool) (j : Nat) (name : List Char) (cs : List Node)
    (r : List Char) :
    ∃ d t, elementTail b j name cs ++ r = d :: t ∧ (d = '\t' ∨ d = '/' ∨ d = '>') := by
  unfold elementTail
  by_cases hc : cs.length = 0
  · cases b
    · simp only [hc, ↓reduceIte, Bool.false_eq_true, List.append_assoc, List.cons_append,
        List.nil_append]
      obtain ⟨d, t, h1, h2⟩ := tabChars_append_head j '/' ('>' :: r)
      exact ⟨d, t, h1, h2.elim Or.inl (fun h => Or.inr (Or.inl h))⟩
    · simp only [hc, ↓reduceIte, List.append_assoc, List.cons_append, List.nil_append]
      obtain ⟨d, t, h1, h2⟩ := tabChars_append_head j '/' ('>' :: '\n' :: r)
      exact ⟨d, t, h1, h2.elim Or.inl (fun h => Or.inr (Or.inl h))⟩
  · cases b
    · simp only [hc, ↓reduceIte, Bool.false_eq_true, List.append_assoc, List.cons_append,
        List.nil_append]
      obtain ⟨d, t, h1, h2⟩ := tabChars_append_head j '>' _
      exact ⟨d, t, h1, h2.elim Or.inl (fun h => Or.inr (Or.inr h))⟩
    · simp only [hc, ↓reduceIte, List.cons_append]
      exact ⟨'>', _, rfl, Or.inr (Or.inr rfl)⟩

theorem afterName_head (attrs : List Attribute) (b : Bool) (j : Nat) (name : List Char)
    (cs : List Node) (r : List Char) :
    ∃ d t, attributesText attrs ++ (elementTail b j name cs ++ r) = d :: t
      ∧ tagEnd d = true := by
  cases attrs with
  | nil =>
    obtain ⟨d, t, h1, h2⟩ := elementTail_head b j name cs r
    refine ⟨d, t, by rw [attributesText_nil, List.nil_append, h1], ?_⟩
    rcases h2 with h | h | h <;> rw [h] <;> rfl
  | cons a l =>
    exact ⟨' ', _, by rw [attributesText_cons]; rfl, rfl⟩

theorem elementTail_ne_space (b : Bool) (j : Nat) (name : List Char) (cs : List Node)
    (r : List Char) : ∀ t, elementTail b j name cs ++ r ≠ ' ' :: t := by
  intro t h
  obtain ⟨d, t0, h1, h2⟩ := elementTail_head b j name cs r
  rw [h1] at h
  have h3 := (List.cons.inj h).1
  rcases h2 with h4 | h4 | h4 <;> rw [h4] at h3 <;> exact absurd h3 (by decide)

theorem elementTail_inj (b : Bool) (j : Nat) (name : List Char) (cs cs' : List Node)
    (r r' : List Char) (hcs : NodesInj cs) (hp : nodesPlain cs = true)
    (hp' : nodesPlain cs' = true)
    (h : elementTail b j name cs ++ r = elementTail b j name cs' ++ r') :
    nodesEraseRange cs = nodesEraseRange cs' ∧ r = r' := by
  unfold elementTail at h
  by_cases hc : cs.length = 0 <;> by_cases hc' : cs'.length = 0 <;> cases b <;>
    simp only [hc, hc', ↓reduceIte, Bool.false_eq_true, List.append_assoc,
      List.cons_append, List.nil_append] at h
  · have h1 := List.append_cancel_left h
    simp only [List.cons.injEq, true_and] at h1
    rw [List.length_eq_zero.mp hc, List.length_eq_zero.mp hc']
    exact ⟨rfl, h1⟩
  · have h1 := List.append_cancel_left h
    simp only [List.cons.injEq, true_and] at h1
    rw [List.length_eq_zero.mp hc, List.length_eq_zero.mp hc']
    exact ⟨rfl, h1⟩
  · have h1 := List.append_cancel_left h
    simp only [List.cons.injEq, Char.reduceEq, false_and] at h1
  · exact absurd h (tabChars_cons_ne j '/' '>' _ _ (by decide) (by decide))
  · have h1 := List.append_cancel_left h
    simp only [List.cons.injEq, Char.reduceEq, false_and] at h1
  · exact absurd h.symm (tabChars_cons_ne j '/' '>' _ _ (by decide) (by decide))
  · have h1 := List.append_cancel_left h
    simp only [List.cons.injEq, true_and] at h1
    obtain ⟨hC, h2⟩ := hcs cs' 0 _ _ hp hp' (stop_inline_close _) (stop_inline_close _) h1
    simp only [List.cons.injEq, true_and] at h2
    have h3 := List.append_cancel_left h2
    simp only [List.cons.injEq, true_and] at h3
    exact ⟨hC, h3⟩
  · simp only [List.cons.injEq, true_and] at h
    obtain ⟨hC, h2⟩ := hcs cs' (j + 1) _ _ hp hp' (stop_block_close j _)
      (stop_block_close j _) h
    simp only [List.cons.injEq, true_and] at h2
    have h3 := List.append_cancel_left h2
    simp only [List.cons.injEq, true_and] at h3
    have h4 := List.append_cancel_left h3
    simp only [List.cons.injEq, true_and] at h4
    exact ⟨hC, h4⟩

theorem element_inj (name : String) (attrs : List Attribute) (cs : List Node)
    (hcs : NodesInj cs) : NodeInj (Node.Element name attrs cs) := by
  intro n' j r r' hn hn' h
  have hk : Node.kind (Node.Element name attrs cs) = Node.kind n' := by
    rw [← text_kind _ hn j r, ← text_kind n' hn' j r', h]
  cases n' with
  | Element name' attrs' cs' =>
    simp only [Node.plain, Bool.and_eq_true, List.all_eq_true] at hn hn'
    simp only [text_element, List.append_assoc, List.cons_append] at h
    have hname : name.data ++ (attributesText attrs
          ++ (elementTail (isBlockElement name) j name.data cs ++ r))
        = name'.data ++ (attributesText attrs'
          ++ (elementTail (isBlockElement name') j name'.data cs' ++ r')) := by
      cases hb : isBlockElement name <;> cases hb' : isBlockElement name' <;>
        simp only [hb, hb', ↓reduceIte, Bool.false_eq_true, List.nil_append,
          List.cons_append, List.cons.injEq, true_and, Char.reduceEq, false_and] at h
      · exact h
      · exact (List.cons.inj (List.append_cancel_left h)).2
    obtain ⟨d, t, hd, hp⟩ := afterName_head attrs (isBlockElement name) j name.data cs r
    obtain ⟨d', t', hd', hp'⟩ :=
      afterName_head attrs' (isBlockElement name') j name'.data cs' r'
    rw [hd, hd'] at hname
    obtain ⟨hN, h1⟩ := split_at_delim tagEnd _ _ _ _ _ _ (plainTag_all _ hn.1.1)
      (plainTag_all _ hn'.1.1) hname hp hp'
    rw [← hd, ← hd'] at h1
    have hS : name = name' := String.ext hN
    subst hS
    obtain ⟨hA, h2⟩ := attributes_inj attrs attrs' _ _ hn.1.2 hn'.1.2
      (elementTail_ne_space _ _ _ _ _) (elementTail_ne_space _ _ _ _ _) h1
    obtain ⟨hC, h3⟩ := elementTail_inj _ j _ cs cs' r r' hcs hn.2 hn'.2 h2
    exact ⟨by simp only [Node.eraseRange, hA, hC], h3⟩
  | Whitespace _ => simp [Node.kind] at hk
  | StringExpression _ => simp [Node.kind] at hk
  | CallTemplateExpression _ _ => simp [Node.kind] at hk
  | IfExpression _ _ _ => simp [Node.kind] at hk
  | SwitchExpression _ _ _ => simp [Node.kind] at hk
  | ForExpression _ _ => simp [Node.kind] at hk

mutual
theorem node_inj : ∀ n : Node, NodeInj n
  | Node.Whitespace _ => fun _ _ _ _ hn => by simp [Node.plain] at hn
  | Node.Element name attrs cs => element_inj name attrs cs (nodes_inj cs)
  | Node.StringExpression e => fun n' j r r' hn hn' h => by
    have hk : Node.kind (Node.StringExpression e) = Node.kind n' := by
      rw [← text_kind _ hn j r, ← text_kind n' hn' j r', h]
    cases n' with
    | StringExpression e' => exact stringExpression_inj e e' j r r' hn hn' h
    | Whitespace _ => simp [Node.kind] at hk
    | Element _ _ _ => simp [Node.kind] at hk
    | CallTemplateExpression _ _ => simp [Node.kind] at hk
    | IfExpression _ _ _ => simp [Node.kind] at hk
    | SwitchExpression _ _ _ => simp [Node.kind] at hk
    | ForExpression _ _ => simp [Node.kind] at hk
  | Node.CallTemplateExpression name args => fun n' j r r' hn hn' h => by
    have hk : Node.kind (Node.CallTemplateExpression name args) = Node.kind n' := by
      rw [← text_kind _ hn j r, ← text_kind n' hn' j r', h]
    cases n' with
    | CallTemplateExpression name' args' => exact call_inj name args name' args' j r r' hn hn' h
    | Whitespace _ => simp [Node.kind] at hk
    | Element _ _ _ => simp [Node.kind] at hk
    | StringExpression _ => simp [Node.kind] at hk
    | IfExpression _ _ _ => simp [Node.kind] at hk
    | SwitchExpression _ _ _ => simp [Node.kind] at hk
    | ForExpression _ _ => simp [Node.kind] at hk
  | Node.IfExpression e t el => if_inj e t el (nodes_inj t) (nodes_inj el)
  | Node.SwitchExpression e cases d => switch_inj e cases d (cases_inj cases) (nodes_inj d)
  | Node.ForExpression e cs => for_inj e cs (nodes_inj cs)
theorem nodes_inj : ∀ l : List Node, NodesInj l
  | [] => nodes_nil_inj
  | c :: l => nodes_cons_inj c l (node_inj c) (nodes_inj l)
theorem cases_inj : ∀ l : List CaseExpression, CasesInj l
  | [] => cases_nil_inj
  | CaseExpression.mk e cs :: l => cases_cons_inj e cs l (nodes_inj cs) (cases_inj l)
end

/-! ## Template files can be read back -/

theorem templateSegment_data (t : Template) :
    (templateSegment t).data
      = "\x7b% templ ".data ++ (t.Name.Value.data ++ ('(' :: (t.Parameters.Value.data
          ++ (") %\x7d\n".data ++ (nodesText 1 t.Children
          ++ "\x7b% endtempl %\x7d\n\n\n\n".data))))) := by
  have h1 : nodesText 1 t.Children = (concat (nodesWrites (0 + 1) t.Children)).data := rfl
  simp only [templateSegment_eq, Template.writes, h1, indentWrites, concat_cons,
    concat_nil, concat_append, tabs_zero,
    String.data_append, String.empty_append, String.append_empty, List.append_assoc]
  rfl

theorem templateSegments_inj (l l' : List Template) (hl : ∀ t ∈ l, t.plain = true)
    (hl' : ∀ t ∈ l', t.plain = true)
    (h : (concat (l.map templateSegment)).data = (concat (l'.map templateSegment)).data) :
    l.map Template.eraseRange = l'.map Template.eraseRange := by
  induction l generalizing l' with
  | nil =>
    cases l' with
    | nil => rfl
    | cons t' r' =>
      simp only [List.map_nil, List.map_cons, concat_nil, concat_cons, String.data_append,
        templateSegment_data, List.append_assoc] at h
      exact absurd h (nil_ne_templ_append _)
  | cons t r ih =>
    cases l' with
    | nil =>
      simp only [List.map_nil, List.map_cons, concat_nil, concat_cons, String.data_append,
        templateSegment_data, List.append_assoc] at h
      exact absurd h.symm (nil_ne_templ_append _)
    | cons t' r' =>
      have hp := hl t (List.mem_cons_self _ _)
      have hp' := hl' t' (List.mem_cons_self _ _)
      simp only [Template.plain, Bool.and_eq_true, plainHead_iff, plainArguments_iff] at hp hp'
      simp only [List.map_cons, concat_cons, String.data_append, templateSegment_data,
        List.append_assoc, List.cons_append, List.nil_append] at h
      simp only [List.cons.injEq, true_and] at h
      obtain ⟨hname, h2⟩ := split_at_paren _ _ _ _ hp.1.1 hp'.1.1 h
      obtain ⟨hparams, h3⟩ := split_at_params _ _ _ _ hp.1.2 hp'.1.2 h2
      simp only [List.cons.injEq, true_and] at h3
      obtain ⟨hC, h4⟩ := nodes_inj t.Children t'.Children 1 _ _ hp.2 hp'.2
        (stop_brace 0 _) (stop_brace 0 _) h3
      have h6 := List.append_cancel_left h4
      simp only [List.cons.injEq, true_and] at h6
      have h5 := ih r' (fun x hx => hl x (List.mem_cons_of_mem _ hx))
        (fun x hx => hl' x (List.mem_cons_of_mem _ hx)) h6
      simp only [List.map_cons, h5, Template.eraseRange, hC,
        expression_eraseRange_eq _ _ hname, expression_eraseRange_eq _ _ hparams]

theorem eraseRange_eq_of_output_eq (tf tf' : TemplateFile) (h : tf.Plain)
    (h' : tf'.Plain)
    (ho : (tf.Write bytesBuffer "").1 = (tf'.Write bytesBuffer "").1) :
    tf.eraseRange = tf'.eraseRange := by
  obtain ⟨hp, hi, ht⟩ := h
  obtain ⟨hp', hi', ht'⟩ := h'
  rw [templateFileWrite_bytesBuffer, templateFileWrite_bytesBuffer] at ho
  have hd := congrArg String.data ho
  simp only [String.data_append, packageSegment_data, List.append_assoc, List.cons_append,
    List.nil_append] at hd
  simp only [List.cons.injEq, true_and] at hd
  obtain ⟨hpkg, h2⟩ := split_at_close _ _ _ _ ((plainText_iff _).mp hp)
    ((plainText_iff _).mp hp') hd
  simp only [List.cons.injEq, true_and] at h2
  obtain ⟨himps, h3⟩ := importSegments_inj _ _ hi hi' _ _ h2
  have htpls := templateSegments_inj _ _ ht ht' h3
  simp only [TemplateFile.eraseRange, himps, htpls, expression_eraseRange_eq _ _ hpkg]

theorem exists_parse :
    ∃ parse : String → TemplateFile,
      ∀ tf : TemplateFile, tf.Plain → parse (tf.Write bytesBuffer "").1 = tf.eraseRange := by
  classical
  refine ⟨fun text =>
    if h : ∃ tf : TemplateFile, tf.Plain ∧ (tf.Write bytesBuffer "").1 = text
    then (Classical.choose h).eraseRange else emptyTemplateFile, ?_⟩
  intro tf htf
  have h : ∃ tf' : TemplateFile,
      tf'.Plain ∧ (tf'.Write bytesBuffer "").1 = (tf.Write bytesBuffer "").1 :=
    ⟨tf, htf, rfl⟩
  simp only [dif_pos h]
  exact eraseRange_eq_of_output_eq _ _ (Classical.choose_spec h).1 htf
    (Classical.choose_spec h).2

/-! ## Layout of the compound nodes, partial output -/

theorem concat_indentWrites (n : Nat) (str : String) :
    concat (indentWrites (n : Int) str) = copies "\t" n ++ str := by
  simp only [indentWrites, concat_cons, concat_nil, String.append_empty, tabs,
    Int.toNat_ofNat]

theorem nodeWrite_bytesBuffer (s : String) (indent : Int) (h : 0 ≤ indent) (n : Node) :
    Node.Write bytesBuffer s indent n = (s ++ concat (Node.writes indent n), Outcome.nil) := by
  rw [nodeWrite_eq_writeAll bytesBuffer n s indent h, writeAll_bytesBuffer]

theorem output_eq_concat (indent : Int) (h : 0 ≤ indent) (n : Node) :
    Node.output indent n = concat (Node.writes indent n) := by
  simp only [Node.output, nodeWrite_bytesBuffer "" indent h, String.empty_append]

theorem concat_nodesWrites (indent : Int) (h : 0 ≤ indent) (l : List Node) :
    concat (nodesWrites indent l) = nodesOutput indent l := by
  induction l with
  | nil => rfl
  | cons c rest ih =>
    simp only [nodesWrites, nodesOutput, List.map_cons, concat_cons, concat_append,
      output_eq_concat indent h]
    rw [ih]
    rfl

theorem concat_attributesWrites (l : List Attribute) :
    concat (attributesWrites l) = attributesLayout l := by
  induction l with
  | nil => rfl
  | cons a rest ih =>
    simp only [attributesWrites, attributesLayout, List.map_cons, concat_cons,
      String.append_assoc]
    rw [ih]
    rfl

theorem concat_casesWrites (n : Nat) (l : List CaseExpression) :
    concat (casesWrites ((n : Int) + 1) l) = concat (l.map (caseLayout n)) := by
  have h1 : (0 : Int) ≤ (n : Int) + 1 + 1 := by omega
  have h2 : ((n : Int) + 1) = ((n + 1 : Nat) : Int) := by push_cast; rfl
  have h3 : (n : Int) + 1 + 1 = (n : Int) + 2 := by omega
  induction l with
  | nil => rfl
  | cons c rest ih =>
    cases c with
    | mk e children =>
      simp only [casesWrites, List.map_cons, concat_cons, concat_append, caseLayout,
        concat_nodesWrites _ h1, ih, String.append_assoc]
      rw [h2, concat_indentWrites, concat_indentWrites, ← h2, h3]
      simp only [String.append_assoc]

theorem isBlockElement_iff (name : String) :
    isBlockElement name = true ↔ name = "br" ∨ name = "hr" ∨ name = "div" := by
  simp [isBlockElement, blockElements]

theorem length_pos_iff_isEmpty (l : List Node) : l.length > 0 ↔ l.isEmpty = false := by
  cases l <;> simp

theorem concat_singleton_append (p : String) (l : List String) :
    concat ([p] ++ l) = p ++ concat l := rfl

theorem block_element_layout_aux (n : Nat) (name : String) (attrs : List Attribute)
    (children : List Node) (hb : isBlockElement name = true) (hc : children ≠ []) :
    Node.Write bytesBuffer "" (n : Int) (Node.Element name attrs children)
      = ("\n" ++ copies "\t" n ++ "<" ++ name ++ attributesLayout attrs ++ ">" ++ "\n"
          ++ nodesOutput ((n : Int) + 1) children
          ++ "\n" ++ copies "\t" n ++ "</" ++ name ++ ">",
        Outcome.nil) := by
  have h0 : (0 : Int) ≤ (n : Int) := by omega
  have h1 : (0 : Int) ≤ (n : Int) + 1 := by omega
  have hl : ¬ children.length = 0 := fun h => hc (List.length_eq_zero.mp h)
  have hg : (">\n" : String) = ">" ++ "\n" := rfl
  rw [nodeWrite_bytesBuffer "" _ h0]
  simp only [Node.writes, hb, hl, ↓reduceIte, concat_append, concat_singleton,
    concat_indentWrites, concat_attributesWrites, concat_nodesWrites _ h1, hg,
    String.append_assoc, String.empty_append]

theorem writeAll_ne_panic {σ ε : Type} (w : Writer σ ε) (l : List String) (s : σ) :
    (writeAll w s l).2 ≠ Outcome.panic := by
  induction l generalizing s with
  | nil => simp [writeAll]
  | cons p rest ih =>
    rcases hw : w.Write s p with ⟨s', _ | e⟩
    · have h : write w s p = (s', Outcome.nil) := by simp only [write, hw]
      simp only [writeAll, h, andThen_nil]
      exact ih s'
    · have h : write w s p = (s', Outcome.error e) := by simp only [write, hw]
      simp [writeAll, h]

theorem writeAll_never_failing {σ ε : Type} (w : Writer σ ε)
    (hw : ∀ (s : σ) (p : String), (w.Write s p).2 = none) (l : List String) (s : σ) :
    (writeAll w s l).2 = Outcome.nil := by
  induction l generalizing s with
  | nil => rfl
  | cons p rest ih =>
    have h : write w s p = ((w.Write s p).1, Outcome.nil) := by
      have h1 := hw s p
      rcases hw' : w.Write s p with ⟨s', _ | e⟩
      · simp only [write, hw']
      · rw [hw'] at h1
        exact absurd h1 (by simp)
    simp only [writeAll, h, andThen_nil]
    exact ih _

theorem writeAll_recording_calls {σ ε : Type} (w : Writer σ ε) (l : List String) :
    ∀ (s : σ) (journal : List (String × Option ε)),
      ∃ ext, (writeAll (recording w) (s, journal) l).1.2 = journal ++ ext ∧
        ((writeAll (recording w) (s, journal) l).2 = Outcome.nil →
          ext.map Prod.fst = l ∧ ∀ c ∈ ext, c.2 = none) ∧
        (∀ e, (writeAll (recording w) (s, journal) l).2 = Outcome.error e →
          ∃ pre p rest, ext = pre ++ [(p, some e)] ∧ (∀ c ∈ pre, c.2 = none) ∧
            l = pre.map Prod.fst ++ p :: rest) := by
  induction l with
  | nil =>
    intro s journal
    refine ⟨[], (List.append_nil _).symm, fun _ => ⟨rfl, by simp⟩, ?_⟩
    intro e he
    simp [writeAll] at he
  | cons p rest ih =>
    intro s journal
    rcases hw : w.Write s p with ⟨s', _ | e⟩
    · have h1 : write (recording w) (s, journal) p
          = ((s', journal ++ [(p, none)]), Outcome.nil) := by
        simp only [write, recording, hw]
      obtain ⟨ext, hj, hnil, herr⟩ := ih s' (journal ++ [(p, none)])
      have h2 : writeAll (recording w) (s, journal) (p :: rest)
          = writeAll (recording w) (s', journal ++ [(p, none)]) rest := by
        simp only [writeAll, h1, andThen_nil]
      rw [h2]
      refine ⟨(p, none) :: ext, by rw [hj, List.append_assoc]; rfl, ?_, ?_⟩
      · intro ho
        obtain ⟨h3, h4⟩ := hnil ho
        refine ⟨by simp only [List.map_cons, h3], ?_⟩
        intro c hc
        rcases List.mem_cons.mp hc with rfl | hc
        · rfl
        · exact h4 c hc
      · intro e he
        obtain ⟨pre, q, tl, h3, h4, h5⟩ := herr e he
        refine ⟨(p, none) :: pre, q, tl, by rw [h3]; rfl, ?_, by rw [h5]; rfl⟩
        intro c hc
        rcases List.mem_cons.mp hc with rfl | hc
        · rfl
        · exact h4 c hc
    · have h1 : write (recording w) (s, journal) p
          = ((s', journal ++ [(p, some e)]), Outcome.error e) := by
        simp only [write, recording, hw]
      have h2 : writeAll (recording w) (s, journal) (p :: rest)
          = ((s', journal ++ [(p, some e)]), Outcome.error e) := by
        simp only [writeAll, h1, andThen_error]
      rw [h2]
      refine ⟨[(p, some e)], rfl, fun ho => by simp at ho, ?_⟩
      intro e' he'
      simp only [Outcome.error.injEq] at he'
      subst he'
      exact ⟨[], p, rest, rfl, by simp, rfl⟩

theorem filter_accepted {ε : Type} (pre : List (String × Option ε))
    (h : ∀ c ∈ pre, c.2 = none) : (pre.filter fun c => c.2.isNone) = pre := by
  rw [List.filter_eq_self]
  intro c hc
  rw [h c hc]
  rfl

theorem writeAll_partialOutput {σ ε : Type} (w : Writer σ ε) (l : List String) (s : σ) :
    PartialOutput (writeAll (recording w) (s, []) l).1.2 l := by
  obtain ⟨ext, hj, hnil, herr⟩ := writeAll_recording_calls w l s []
  rw [hj, List.nil_append]
  cases ho : (writeAll (recording w) (s, []) l).2 with
  | nil =>
    obtain ⟨h1, h2⟩ := hnil ho
    refine ⟨⟨[], by rw [h1, List.append_nil]⟩, ⟨[], ?_⟩⟩
    rw [List.append_nil, accepted, filter_accepted ext h2, h1]
  | error e =>
    obtain ⟨pre, p, rest, h1, h2, h3⟩ := herr e ho
    refine ⟨⟨rest, ?_⟩, ⟨(concat (p :: rest)).data, ?_⟩⟩
    · rw [h1, h3, List.map_append, List.append_assoc]
      rfl
    · have h4 : (pre ++ [(p, some e)]).filter (fun c => c.2.isNone) = pre := by
        rw [List.filter_append, filter_accepted pre h2]
        simp
      rw [h1, accepted, h4, h3, concat_append, String.data_append]
  | panic => exact absurd ho (writeAll_ne_panic _ _ _)

theorem writeAll_calls_never_failing {σ ε : Type} (w : Writer σ ε)
    (hw : ∀ (s : σ) (p : String), (w.Write s p).2 = none) (l : List String) (s : σ) :
    ((writeAll (recording w) (s, []) l).1.2).map Prod.fst = l := by
  obtain ⟨ext, hj, hnil, _⟩ := writeAll_recording_calls w l s []
  have ho : (writeAll (recording w) (s, []) l).2 = Outcome.nil := by
    rw [(writeAll_recording w l s []).2.1]
    exact writeAll_never_failing w hw l s
  rw [hj, List.nil_append]
  exact (hnil ho).1

theorem calls_eq_writes (indent : Int) (h : 0 ≤ indent) (n : Node) :
    Node.calls indent n = Node.writes indent n := by
  rw [Node.calls, nodeWrite_eq_writeAll _ _ _ _ h]
  exact writeAll_calls_never_failing bytesBuffer (fun _ _ => rfl) _ _

theorem exists_roundTrip_parse :
    ∃ parse : String → TemplateFile, RoundTripContract TemplateFile.Plain parse := by
  classical
  refine ⟨fun text =>
    if h : ∃ tf : TemplateFile, tf.Plain ∧ (tf.Write bytesBuffer "").1 = text
    then Classical.choose h else emptyTemplateFile, ?_⟩
  intro tf htf
  have h : ∃ tf' : TemplateFile,
      tf'.Plain ∧ (tf'.Write bytesBuffer "").1 = (tf.Write bytesBuffer "").1 :=
    ⟨tf, htf, rfl⟩
  simp only [dif_pos h]
  exact eraseRange_eq_of_output_eq _ _ (Classical.choose_spec h).1 htf
    (Classical.choose_spec h).2

/-! # The claims -/

/-- C1 (counterexample): taking the only `Whitespace` node out of `IfExpression.Else`, out of
`SwitchExpression.Default` or out of `Element.Children` changes the output: with the node the
writer puts out `{% else %}`, `{% default %}` ... `{% enddefault %}` or `<span></span>`,
without it nothing or `<span/>`. -/
theorem whitespace_erasure_counterexample :
    (Node.Write bytesBuffer "" 0
        (Node.IfExpression (expr "c") [] ([] ++ Node.Whitespace " " :: []))).1
      ≠ (Node.Write bytesBuffer "" 0 (Node.IfExpression (expr "c") [] ([] ++ []))).1 ∧
    (Node.Write bytesBuffer "" 0
        (Node.SwitchExpression (expr "c") [] ([] ++ Node.Whitespace " " :: []))).1
      ≠ (Node.Write bytesBuffer "" 0 (Node.SwitchExpression (expr "c") [] ([] ++ []))).1 ∧
    (Node.Write bytesBuffer "" 0
        (Node.Element "span" [] ([] ++ Node.Whitespace " " :: []))).1
      ≠ (Node.Write bytesBuffer "" 0 (Node.Element "span" [] ([] ++ []))).1 := by
  decide

/-- C1 (amended): for a template file, a template or a node, on every sink, from every sink
state and at every indent, `Write` does the same (same sink state afterwards, same outcome)
on the tree and on the tree with one `Whitespace` node taken out of a child list at any
depth, provided the list keeps a node when it is one of the three lists the writer tests for
emptiness (`Element.Children`, `IfExpression.Else`, `SwitchExpression.Default`). -/
theorem whitespace_erasure :
    (∀ (tf tf' : TemplateFile), TemplateFile.WhitespaceRemoved tf tf' →
      ∀ (σ ε : Type) (w : Writer σ ε) (s : σ), tf.Write w s = tf'.Write w s) ∧
    (∀ (t t' : Template), Template.WhitespaceRemoved t t' →
      ∀ (σ ε : Type) (w : Writer σ ε) (s : σ) (indent : Int),
        t.Write w s indent = t'.Write w s indent) ∧
    (∀ (n n' : Node), Node.WhitespaceRemoved n n' →
      ∀ (σ ε : Type) (w : Writer σ ε) (s : σ) (indent : Int),
        Node.Write w s indent n = Node.Write w s indent n') :=
  ⟨fun tf tf' h _ _ w s => templateFileWrite_of_whitespaceRemoved w tf tf' h s,
    fun t t' h _ _ w s indent => templateWrite_of_whitespaceRemoved w t t' h s indent,
    fun n n' h _ _ w s indent => nodeWrite_of_whitespaceRemoved w n n' h s indent⟩

/-- C1 (witness): a `Whitespace` node in front of a string expression, inside a `span`
inside the `Else` list of an `if`, can go: the output on a buffer at indent 1 is the same. -/
theorem whitespace_erasure_witness :
    Node.WhitespaceRemoved
      (Node.IfExpression (expr "c") []
        ([] ++ Node.Element "span" []
          ([] ++ Node.Whitespace " " :: [Node.StringExpression (expr "x")]) :: []))
      (Node.IfExpression (expr "c") []
        ([] ++ Node.Element "span" [] ([] ++ [Node.StringExpression (expr "x")]) :: [])) ∧
    Node.Write bytesBuffer "" 1
      (Node.IfExpression (expr "c") []
        ([] ++ Node.Element "span" []
          ([] ++ Node.Whitespace " " :: [Node.StringExpression (expr "x")]) :: []))
      = Node.Write bytesBuffer "" 1
        (Node.IfExpression (expr "c") []
          ([] ++ Node.Element "span" [] ([] ++ [Node.StringExpression (expr "x")]) :: [])) :=
  have h := Node.WhitespaceRemoved.inElse (expr "c") [] [] [] _ _
    (Node.WhitespaceRemoved.elementChildren "span" [] []
      [Node.StringExpression (expr "x")] " " (by simp))
  ⟨h, whitespace_erasure.2.2 _ _ h String Unit bytesBuffer "" 1⟩

/-- C2 (counterexample): two files that differ by a `Whitespace` node, and two files without
`Whitespace` nodes that differ in how the text is shared out between the package clause and
an import, have the same output although they differ in more than Position/Range metadata;
so no function from text to trees gives back every tree up to that metadata. -/
theorem round_trip_counterexample :
    (whitespaceFile.Write bytesBuffer "" = emptyTemplateFile.Write bytesBuffer "" ∧
      whitespaceFile.eraseRange ≠ emptyTemplateFile.eraseRange) ∧
    (forgedImportFile.Write bytesBuffer "" = realImportFile.Write bytesBuffer "" ∧
      forgedImportFile.eraseRange ≠ realImportFile.eraseRange) ∧
    ¬ ∃ parse : String → TemplateFile,
      ∀ tf : TemplateFile, parse (tf.Write bytesBuffer "").1 = tf.eraseRange := by
  have h1 : whitespaceFile.eraseRange ≠ emptyTemplateFile.eraseRange := by
    intro h
    have h2 := congrArg (fun tf => tf.Templates.map fun t => t.Children.length) h
    revert h2
    decide
  have h3 : forgedImportFile.eraseRange ≠ realImportFile.eraseRange := by
    intro h
    have h2 := congrArg (fun tf => tf.Imports.length) h
    revert h2
    decide
  refine ⟨⟨by decide, h1⟩, ⟨by decide, h3⟩, ?_⟩
  rintro ⟨parse, hparse⟩
  apply h1
  rw [← hparse whitespaceFile, ← hparse emptyTemplateFile]
  exact congrArg parse (by decide)

/-- C2 (amended): `Write` depends on a template file only up to Position/Range metadata
(files that are equal once the ranges are dropped are written the same on every sink); and on
the plain template files (`TemplateFile.Plain`: no `Whitespace` node, no text that can be
taken for a delimiter of its clause) it is injective up to that metadata, so that a function
`parse` from text to trees exists with `parse (write T) = T` up to ranges for every plain
`T`. -/
theorem round_trip_up_to_range :
    (∀ (tf tf' : TemplateFile), tf.eraseRange = tf'.eraseRange →
      ∀ (σ ε : Type) (w : Writer σ ε) (s : σ), tf.Write w s = tf'.Write w s) ∧
    (∀ (tf tf' : TemplateFile), tf.Plain → tf'.Plain →
      (tf.Write bytesBuffer "").1 = (tf'.Write bytesBuffer "").1 →
      tf.eraseRange = tf'.eraseRange) ∧
    (∃ parse : String → TemplateFile,
      ∀ tf : TemplateFile, tf.Plain → parse (tf.Write bytesBuffer "").1 = tf.eraseRange) :=
  ⟨fun tf tf' h _ _ w s => by
      rw [← templateFileWrite_eraseRange w tf, ← templateFileWrite_eraseRange w tf', h],
    fun tf tf' h h' ho => eraseRange_eq_of_output_eq tf tf' h h' ho,
    exists_parse⟩

/-- C2 (witness): a file with every kind of node but `Whitespace`, and the same file read
from other source positions, are plain, have the same output, and are equal once the ranges
are dropped. -/
theorem round_trip_up_to_range_witness :
    richExample.Plain ∧ richExampleMoved.Plain ∧
    (richExample.Write bytesBuffer "").1 = (richExampleMoved.Write bytesBuffer "").1 ∧
    richExample.eraseRange = richExampleMoved.eraseRange ∧
    richExample.Write bytesBuffer "" = richExampleMoved.Write bytesBuffer "" :=
  have h1 : richExample.Plain := by decide
  have h2 : richExampleMoved.Plain := by decide
  have h0 : richExample.eraseRange = richExampleMoved.eraseRange := rfl
  have h5 := round_trip_up_to_range.1 richExample richExampleMoved h0 String Unit
    bytesBuffer ""
  have h3 : (richExample.Write bytesBuffer "").1
      = (richExampleMoved.Write bytesBuffer "").1 := congrArg Prod.fst h5
  ⟨h1, h2, h3, round_trip_up_to_range.2.1 richExample richExampleMoved h1 h2 h3, h5⟩

/-- C3 (code defect): on the nesting example `TemplateFile.Write` succeeds on a buffer and
leaves a text that is not the one of the specification. It has two blank lines after the
import, no line break between the child `{%= p.Name() %}` and `{% endtempl %}`, and three
blank lines at the end. -/
theorem nesting_example_output :
    nestingExample.Write bytesBuffer ""
      = ("\x7b% package templ %\x7d\n\n\x7b% import \"strings\" %\x7d\n\n\n"
          ++ "\x7b% templ Render(p Person) %\x7d\n\t\x7b%= p.Name() %\x7d\x7b% endtempl %\x7d\n\n\n\n",
        Outcome.nil) ∧
    (nestingExample.Write bytesBuffer "").1
      ≠ "\x7b% package templ %\x7d\n\n\x7b% import \"strings\" %\x7d\n\n"
          ++ "\x7b% templ Render(p Person) %\x7d\n\t\x7b%= p.Name() %\x7d\n\x7b% endtempl %\x7d\n\n" := by
  decide

/-- C4 (code defect): with two imports and two templates, `TemplateFile.Write` leaves a
blank line between the two imports, two blank lines between the last import and the first
template, and three blank lines after each template: every loop round writes a line break
after an item that has already written its own. -/
theorem top_level_layout_output :
    layoutExample.Write bytesBuffer ""
      = ("\x7b% package p %\x7d\n\n\x7b% import a %\x7d\n\n\x7b% import b %\x7d\n\n\n"
          ++ "\x7b% templ f() %\x7d\n\x7b% endtempl %\x7d\n\n\n\n"
          ++ "\x7b% templ g() %\x7d\n\x7b% endtempl %\x7d\n\n\n\n",
        Outcome.nil) ∧
    (layoutExample.Write bytesBuffer "").1
      ≠ "\x7b% package p %\x7d\n\n\x7b% import a %\x7d\n\x7b% import b %\x7d\n\n"
          ++ "\x7b% templ f() %\x7d\n\x7b% endtempl %\x7d\n\n"
          ++ "\x7b% templ g() %\x7d\n\x7b% endtempl %\x7d\n" := by
  decide

/-- C5: `TemplateFile.Write` on a buffer succeeds, and its output is the package segment,
then the segments of the imports in list order, then one newline, then the segments of the
templates in list order. Each segment is what the writer puts out for that one item alone
(`importSegment`, `templateSegment`), so the lists are neither sorted nor shortened: the
output follows any permutation of the input lists. -/
theorem ordering_preserved (tf : TemplateFile) :
    tf.Write bytesBuffer ""
      = (packageSegment tf.Package
          ++ concat (tf.Imports.map importSegment)
          ++ "\n"
          ++ concat (tf.Templates.map templateSegment),
        Outcome.nil) :=
  templateFileWrite_bytesBuffer tf

/-- C6: on every sink, `TemplateFile.Write`, and `Node.Write` at a non-negative indent,
return a non-nil error exactly when a write to the sink failed; the error they return is the
one of the first failing write, which is also the last write they make. The run on the sink
with a journal is the run on the sink itself: same sink state, same outcome. -/
theorem failure_semantics {σ ε : Type} (w : Writer σ ε) (s : σ) (tf : TemplateFile)
    (n : Node) (indent : Int) (h : 0 ≤ indent) :
    (FailureSemantics (tf.Write (recording w) (s, [])).1.2
        (tf.Write (recording w) (s, [])).2 ∧
      (tf.Write (recording w) (s, [])).1.1 = (tf.Write w s).1 ∧
      (tf.Write (recording w) (s, [])).2 = (tf.Write w s).2) ∧
    (FailureSemantics (Node.Write (recording w) (s, []) indent n).1.2
        (Node.Write (recording w) (s, []) indent n).2 ∧
      (Node.Write (recording w) (s, []) indent n).1.1 = (Node.Write w s indent n).1 ∧
      (Node.Write (recording w) (s, []) indent n).2 = (Node.Write w s indent n).2) := by
  rw [templateFileWrite_eq_writeAll, templateFileWrite_eq_writeAll,
    nodeWrite_eq_writeAll _ _ _ _ h, nodeWrite_eq_writeAll _ _ _ _ h]
  exact ⟨⟨writeAll_recording_journal w _ s, (writeAll_recording w _ s []).1,
      (writeAll_recording w _ s []).2.1⟩,
    ⟨writeAll_recording_journal w _ s, (writeAll_recording w _ s []).1,
      (writeAll_recording w _ s []).2.1⟩⟩

/-- C6 (witness): on a sink that fails its fourth call, the nesting example is given up at
the write of the import clause, with that call's error and four calls in the journal; a
string expression at indent 1 on a sink that fails its second call ends with that error
after two calls. -/
theorem failure_semantics_witness :
    (0 : Int) ≤ 1 ∧
    nestingExample.Write (recording (failingAt 3)) (0, [])
      = ((4, [("", none), ("\x7b% package templ %\x7d", none), ("\n\n", none),
            ("", some "closed")]), Outcome.error "closed") ∧
    (FailureSemantics (nestingExample.Write (recording (failingAt 1)) (0, [])).1.2
        (nestingExample.Write (recording (failingAt 1)) (0, [])).2 ∧
      (nestingExample.Write (recording (failingAt 1)) (0, [])).1.1
        = (nestingExample.Write (failingAt 1) 0).1 ∧
      (nestingExample.Write (recording (failingAt 1)) (0, [])).2
        = (nestingExample.Write (failingAt 1) 0).2) ∧
    (FailureSemantics
        (Node.Write (recording (failingAt 1)) (0, []) 1
          (Node.StringExpression (expr "x"))).1.2
        (Node.Write (recording (failingAt 1)) (0, []) 1
          (Node.StringExpression (expr "x"))).2 ∧
      (Node.Write (recording (failingAt 1)) (0, []) 1
          (Node.StringExpression (expr "x"))).1.1
        = (Node.Write (failingAt 1) 0 1 (Node.StringExpression (expr "x"))).1 ∧
      (Node.Write (recording (failingAt 1)) (0, []) 1
          (Node.StringExpression (expr "x"))).2
        = (Node.Write (failingAt 1) 0 1 (Node.StringExpression (expr "x"))).2) :=
  ⟨by decide, by decide,
    failure_semantics (failingAt 1) 0 nestingExample (Node.StringExpression (expr "x")) 1
      (by decide)⟩

/-- C7: `ConstantAttribute.String()` is the name, a double quote, the escaped value and a
double quote; the escaped value holds no `<`, no `>` and no double quote character; and the
attribute `href=` with value `"><script>alert(1)</script>` gives
`href="&#34;&gt;&lt;script&gt;alert(1)&lt;/script&gt;"`. -/
theorem constant_attribute_escaping (name value : String) :
    (Attribute.ConstantAttribute name value).String
      = name ++ "\"" ++ htmlEscapeString value ++ "\"" ∧
    '<' ∉ (htmlEscapeString value).data ∧
    '>' ∉ (htmlEscapeString value).data ∧
    '"' ∉ (htmlEscapeString value).data ∧
    (Attribute.ConstantAttribute "href=" "\"><script>alert(1)</script>").String
      = "href=\"&#34;&gt;&lt;script&gt;alert(1)&lt;/script&gt;\"" := by
  obtain ⟨h1, h2, h3⟩ := escapeChars_clean value.data
  exact ⟨rfl, h1, h2, h3, by decide⟩

/-- C8: `ExpressionAttribute.String()` is the name, then `{%= `, the expression text as it
is, then ` %}`; the attribute `href=` with expression `p.URL` gives `href={%= p.URL %}`. -/
theorem expression_attribute_verbatim (name : String) (e : Expression) :
    (Attribute.ExpressionAttribute name { Expression := e }).String
      = name ++ "\x7b%= " ++ e.Value ++ " %\x7d" ∧
    (Attribute.ExpressionAttribute "href=" { Expression := expr "p.URL" }).String
      = "href=\x7b%= p.URL %\x7d" := by
  exact ⟨rfl, by decide⟩

/-- C9 (code defect): a `div` element without attributes and children, written at indent 1
to a buffer, gives `\n\t<div\t/>\n`: the closing `/>` goes through `writeIndent` and gets
the indent's tabs in front, so the text `<div/>` does not occur in the output. -/
theorem block_childless_output :
    Node.Write bytesBuffer "" 1 (Node.Element "div" [] [])
      = ("\n\t<div\t/>\n", Outcome.nil) ∧
    (Node.Write bytesBuffer "" 1 (Node.Element "div" [] [])).1
      ≠ "\n" ++ copies "\t" 1 ++ "<div" ++ "/>" ++ "\n" := by
  decide

/-- C10 (code defect): a `span` element without attributes and children, written at indent 2
to a buffer, gives `<span\t\t/>`, not `<span/>`: the closing `/>` goes through `writeIndent`
at the caller's indent, so the output holds tabs and depends on the indent. -/
theorem inline_childless_output :
    Node.Write bytesBuffer "" 2 (Node.Element "span" [] [])
      = ("<span\t\t/>", Outcome.nil) ∧
    Node.Write bytesBuffer "" 0 (Node.Element "span" [] [])
      = ("<span/>", Outcome.nil) ∧
    (Node.Write bytesBuffer "" 2 (Node.Element "span" [] [])).1 ≠ "<span/>" := by
  decide

/-- C11 (code defect): a `span` element without attributes whose only child is the string
expression `x`, written at indent 2 to a buffer, gives `<span\t\t>{%= x %}</span>`: the `>`
that ends the opening tag goes through `writeIndent` at the caller's indent, which is set to
0 only afterwards. At indent 0 the output is `<span>{%= x %}</span>`. -/
theorem inline_children_output :
    Node.Write bytesBuffer "" 2
        (Node.Element "span" [] [Node.StringExpression (expr "x")])
      = ("<span\t\t>\x7b%= x %\x7d</span>", Outcome.nil) ∧
    Node.Write bytesBuffer "" 0
        (Node.Element "span" [] [Node.StringExpression (expr "x")])
      = ("<span>\x7b%= x %\x7d</span>", Outcome.nil) ∧
    (Node.Write bytesBuffer "" 2
        (Node.Element "span" [] [Node.StringExpression (expr "x")])).1
      ≠ "<span" ++ ">" ++ Node.output 0 (Node.StringExpression (expr "x")) ++ "</span>" := by
  decide

/-- C12: a block element (name `br`, `hr` or `div`) with at least one child, written at
indent `n` to a buffer, gives a newline, `n` tabs, `<name`, the attributes each after a
space, `>` and a newline, the children in order at indent `n + 1`, a newline, `n` tabs and
`</name>`. -/
theorem block_element_layout (n : Nat) (name : String) (attrs : List Attribute)
    (children : List Node) (hb : name = "br" ∨ name = "hr" ∨ name = "div")
    (hc : children ≠ []) :
    Node.Write bytesBuffer "" (n : Int) (Node.Element name attrs children)
      = ("\n" ++ copies "\t" n ++ "<" ++ name ++ attributesLayout attrs ++ ">" ++ "\n"
          ++ nodesOutput ((n : Int) + 1) children
          ++ "\n" ++ copies "\t" n ++ "</" ++ name ++ ">",
        Outcome.nil) :=
  block_element_layout_aux n name attrs children ((isBlockElement_iff name).mpr hb) hc

/-- C12 (witness): a `div` with one attribute and one child at indent 1. -/
theorem block_element_layout_witness :
    ("div" = "br" ∨ "div" = "hr" ∨ "div" = "div") ∧
    [Node.StringExpression (expr "x")] ≠ [] ∧
    Node.Write bytesBuffer "" ((1 : Nat) : Int)
        (Node.Element "div" [Attribute.ConstantAttribute "class=" "a"]
          [Node.StringExpression (expr "x")])
      = ("\n" ++ copies "\t" 1 ++ "<" ++ "div"
          ++ attributesLayout [Attribute.ConstantAttribute "class=" "a"] ++ ">" ++ "\n"
          ++ nodesOutput (((1 : Nat) : Int) + 1) [Node.StringExpression (expr "x")]
          ++ "\n" ++ copies "\t" 1 ++ "</" ++ "div" ++ ">",
        Outcome.nil) ∧
    Node.Write bytesBuffer "" 1
        (Node.Element "div" [Attribute.ConstantAttribute "class=" "a"]
          [Node.StringExpression (expr "x")])
      = ("\n\t<div class=\"a\">\n\t\t\x7b%= x %\x7d\n\t</div>", Outcome.nil) :=
  ⟨by decide, by simp,
    block_element_layout 1 "div" [Attribute.ConstantAttribute "class=" "a"]
      [Node.StringExpression (expr "x")] (by decide) (by simp),
    by decide⟩

/-- C13: `Write` never reads a Range. Two template files, or two nodes, that are equal once
the ranges of their expressions are dropped, are written the same on every sink, from every
sink state and at every indent: same sink state afterwards and same outcome, hence the same
output, and on a sink with a journal the same sequence of writes. -/
theorem range_never_consulted {σ ε : Type} (w : Writer σ ε) (s : σ) (tf tf' : TemplateFile)
    (n n' : Node) (indent : Int) (hf : tf.eraseRange = tf'.eraseRange)
    (hn : Node.eraseRange n = Node.eraseRange n') :
    tf.Write w s = tf'.Write w s ∧
    tf.Write (recording w) (s, []) = tf'.Write (recording w) (s, []) ∧
    Node.Write w s indent n = Node.Write w s indent n' ∧
    Node.Write (recording w) (s, []) indent n
      = Node.Write (recording w) (s, []) indent n' := by
  refine ⟨?_, ?_, ?_, ?_⟩
  · rw [← templateFileWrite_eraseRange w tf, ← templateFileWrite_eraseRange w tf', hf]
  · rw [← templateFileWrite_eraseRange _ tf, ← templateFileWrite_eraseRange _ tf', hf]
  · rw [← nodeWrite_eraseRange w n, ← nodeWrite_eraseRange w n', hn]
  · rw [← nodeWrite_eraseRange _ n, ← nodeWrite_eraseRange _ n', hn]

/-- C13 (witness): the file `richFile` read from two source positions, and the string
expression `x` at two positions, on a sink that fails its sixth call. -/
theorem range_never_consulted_witness :
    richExample.eraseRange = richExampleMoved.eraseRange ∧
    Node.eraseRange (Node.StringExpression (expr "x"))
      = Node.eraseRange (Node.StringExpression (exprAt "x" 9 2 4)) ∧
    richExample.Write (failingAt 5) 0 = richExampleMoved.Write (failingAt 5) 0 ∧
    richExample.Write (recording (failingAt 5)) (0, [])
      = richExampleMoved.Write (recording (failingAt 5)) (0, []) ∧
    Node.Write (failingAt 5) 0 3 (Node.StringExpression (expr "x"))
      = Node.Write (failingAt 5) 0 3 (Node.StringExpression (exprAt "x" 9 2 4)) ∧
    Node.Write (recording (failingAt 5)) (0, []) 3 (Node.StringExpression (expr "x"))
      = Node.Write (recording (failingAt 5)) (0, []) 3
          (Node.StringExpression (exprAt "x" 9 2 4)) :=
  have h1 : richExample.eraseRange = richExampleMoved.eraseRange := rfl
  have h2 : Node.eraseRange (Node.StringExpression (expr "x"))
      = Node.eraseRange (Node.StringExpression (exprAt "x" 9 2 4)) := rfl
  ⟨h1, h2, range_never_consulted (failingAt 5) 0 richExample richExampleMoved _ _ 3 h1 h2⟩

/-- C14: a switch written at indent `n` to a buffer gives `n` tabs, the switch clause and a
newline; for each case in list order `n + 1` tabs, the case clause and a newline, the
children of the case at indent `n + 2`, `n + 1` tabs, `{% endcase %}` and a newline; then,
exactly when Default is not empty, the default block laid out the same way; and last `n`
tabs, `{% endswitch %}` and a newline. -/
theorem switch_layout (n : Nat) (e : Expression) (cases : List CaseExpression)
    (dflt : List Node) :
    Node.Write bytesBuffer "" (n : Int) (Node.SwitchExpression e cases dflt)
      = (copies "\t" n ++ "\x7b% switch " ++ e.Value ++ " %\x7d\n"
          ++ concat (cases.map (caseLayout n))
          ++ (if dflt.isEmpty then ""
              else copies "\t" (n + 1) ++ "\x7b% default %\x7d\n"
                ++ nodesOutput ((n : Int) + 2) dflt
                ++ copies "\t" (n + 1) ++ "\x7b% enddefault %\x7d\n")
          ++ copies "\t" n ++ "\x7b% endswitch %\x7d\n",
        Outcome.nil) := by
  have h0 : (0 : Int) ≤ (n : Int) := by omega
  have h2 : (0 : Int) ≤ (n : Int) + 2 := by omega
  have h3 : ((n : Int) + 1) = ((n + 1 : Nat) : Int) := by push_cast; rfl
  have h4 : (n : Int) + 1 + 1 = (n : Int) + 2 := by omega
  have h5 : ∀ str, concat (indentWrites ((n : Int) + 1) str) = copies "\t" (n + 1) ++ str := by
    intro str
    rw [h3, concat_indentWrites]
  rw [nodeWrite_bytesBuffer "" _ h0]
  cases dflt with
  | nil =>
    simp only [Node.writes, List.length_nil, gt_iff_lt, lt_self_iff_false, ↓reduceIte,
      List.isEmpty_nil, concat_append, concat_nil, concat_indentWrites, concat_casesWrites,
      String.append_assoc, String.empty_append]
  | cons c rest =>
    simp only [Node.writes, List.length_cons, gt_iff_lt, Nat.zero_lt_succ, ↓reduceIte,
      List.isEmpty_cons, Bool.false_eq_true, concat_append, concat_nil, concat_indentWrites,
      concat_casesWrites, h5, h4, concat_nodesWrites _ h2, String.append_assoc,
      String.empty_append]

/-- C15: an if written at indent `n` to a buffer gives `n` tabs, the if clause and a newline,
the Then children at indent `n + 1`, then, exactly when Else is not empty, `n` tabs,
`{% else %}`, a newline and the Else children at indent `n + 1`, and last `n` tabs,
`{% endif %}` and a newline. -/
theorem if_layout (n : Nat) (e : Expression) (thenNodes elseNodes : List Node) :
    Node.Write bytesBuffer "" (n : Int) (Node.IfExpression e thenNodes elseNodes)
      = (copies "\t" n ++ "\x7b% if " ++ e.Value ++ " %\x7d\n"
          ++ nodesOutput ((n : Int) + 1) thenNodes
          ++ (if elseNodes.isEmpty then ""
              else copies "\t" n ++ "\x7b% else %\x7d\n" ++ nodesOutput ((n : Int) + 1) elseNodes)
          ++ copies "\t" n ++ "\x7b% endif %\x7d\n",
        Outcome.nil) := by
  have h0 : (0 : Int) ≤ (n : Int) := by omega
  have h1 : (0 : Int) ≤ (n : Int) + 1 := by omega
  rw [nodeWrite_bytesBuffer "" _ h0]
  cases elseNodes with
  | nil =>
    simp only [Node.writes, List.length_nil, gt_iff_lt, lt_self_iff_false, ↓reduceIte,
      List.isEmpty_nil, concat_append, concat_nil, concat_indentWrites,
      concat_nodesWrites _ h1, String.append_assoc, String.empty_append]
  | cons c rest =>
    simp only [Node.writes, List.length_cons, gt_iff_lt, Nat.zero_lt_succ, ↓reduceIte,
      List.isEmpty_cons, Bool.false_eq_true, concat_append, concat_nil, concat_indentWrites,
      concat_nodesWrites _ h1, String.append_assoc, String.empty_append]

/-- C16: a template written at indent `n` to a buffer gives `n` tabs, the templ clause with
the Name and Parameters text as they are and a newline, the children in order at indent
`n + 1`, then `n` tabs, `{% endtempl %}` and two newline characters. -/
theorem template_layout (n : Nat) (t : Template) :
    t.Write bytesBuffer "" (n : Int)
      = (copies "\t" n ++ "\x7b% templ " ++ t.Name.Value ++ "(" ++ t.Parameters.Value
          ++ ") %\x7d\n" ++ nodesOutput ((n : Int) + 1) t.Children
          ++ copies "\t" n ++ "\x7b% endtempl %\x7d\n\n",
        Outcome.nil) := by
  have h0 : (0 : Int) ≤ (n : Int) := by omega
  have h1 : (0 : Int) ≤ (n : Int) + 1 := by omega
  rw [templateWrite_eq_writeAll bytesBuffer t _ _ h0, writeAll_bytesBuffer]
  simp only [Template.writes, concat_append, concat_indentWrites, concat_nodesWrites _ h1,
    String.append_assoc, String.empty_append]

/-- C17: `isBlockElement`, the lookup `Element.Write` makes, is true exactly for the names
`br`, `hr` and `div`; the comparison is case-sensitive (`DIV`, `Br` and `span` are not block
elements); and whatever the attributes, the children and the indent of an element, its
first write is the newline of the block path exactly when its name is one of the three. -/
theorem block_element_lookup (name : String) (attrs : List Attribute) (children : List Node)
    (n : Nat) :
    (isBlockElement name = true ↔ name = "br" ∨ name = "hr" ∨ name = "div") ∧
    ((Node.calls (n : Int) (Node.Element name attrs children)).head? = some "\n"
      ↔ name = "br" ∨ name = "hr" ∨ name = "div") ∧
    isBlockElement "br" = true ∧ isBlockElement "hr" = true ∧ isBlockElement "div" = true ∧
    isBlockElement "DIV" = false ∧ isBlockElement "Br" = false ∧
    isBlockElement "span" = false ∧ isBlockElement "" = false := by
  have h0 : (0 : Int) ≤ (n : Int) := Int.ofNat_nonneg n
  refine ⟨isBlockElement_iff name, ?_, by decide, by decide, by decide, by decide,
    by decide, by decide, by decide⟩
  rw [calls_eq_writes _ h0, ← isBlockElement_iff name]
  cases hb : isBlockElement name with
  | true => simp [Node.writes, hb]
  | false =>
    have ht : tabs 0 ≠ "\n" := by decide
    simp [Node.writes, hb, indentWrites, ht]

/-- C18 (spec-modelled): for every parser that keeps the round-trip contract on the valid
trees, writing, parsing and writing again gives byte for byte what writing gives, for every
valid tree. -/
theorem idempotence (Valid : TemplateFile → Prop) (parse : String → TemplateFile)
    (hparse : RoundTripContract Valid parse) (T : TemplateFile) (hT : Valid T) :
    (parse (T.Write bytesBuffer "").1).Write bytesBuffer "" = T.Write bytesBuffer "" := by
  rw [← templateFileWrite_eraseRange bytesBuffer (parse (T.Write bytesBuffer "").1),
    hparse T hT, templateFileWrite_eraseRange]

/-- C18 (witness): a parser that keeps the round-trip contract on the plain template files
exists, and with it the file `richExample` is written, parsed and written again to the same
text. -/
theorem idempotence_witness :
    ∃ parse : String → TemplateFile,
      RoundTripContract TemplateFile.Plain parse ∧ richExample.Plain ∧
      (parse (richExample.Write bytesBuffer "").1).Write bytesBuffer ""
        = richExample.Write bytesBuffer "" := by
  obtain ⟨parse, hparse⟩ := exists_roundTrip_parse
  have hp : richExample.Plain := by decide
  exact ⟨parse, hparse, hp, idempotence TemplateFile.Plain parse hparse richExample hp⟩

/-- C19: on every sink, the writes `TemplateFile.Write` makes, and those `Node.Write` makes
at a non-negative indent, up to and including a failing one, are the first writes of the run
on a sink that never fails; and the bytes of the writes that succeeded are the first bytes
of the full output. -/
theorem partial_output_prefix {σ ε σ0 ε0 : Type} (w : Writer σ ε) (s : σ)
    (w0 : Writer σ0 ε0) (s0 : σ0) (hw0 : ∀ (x : σ0) (p : String), (w0.Write x p).2 = none)
    (tf : TemplateFile) (n : Node) (indent : Int) (h : 0 ≤ indent) :
    ((tf.Write (recording w) (s, [])).1.2.map Prod.fst
        <+: (tf.Write (recording w0) (s0, [])).1.2.map Prod.fst ∧
      (accepted (tf.Write (recording w) (s, [])).1.2).data
        <+: (tf.Write bytesBuffer "").1.data) ∧
    ((Node.Write (recording w) (s, []) indent n).1.2.map Prod.fst
        <+: (Node.Write (recording w0) (s0, []) indent n).1.2.map Prod.fst ∧
      (accepted (Node.Write (recording w) (s, []) indent n).1.2).data
        <+: (Node.Write bytesBuffer "" indent n).1.data) := by
  rw [templateFileWrite_eq_writeAll, templateFileWrite_eq_writeAll,
    templateFileWrite_eq_writeAll, nodeWrite_eq_writeAll _ _ _ _ h,
    nodeWrite_eq_writeAll _ _ _ _ h, nodeWrite_eq_writeAll _ _ _ _ h,
    writeAll_calls_never_failing w0 hw0, writeAll_calls_never_failing w0 hw0,
    writeAll_bytesBuffer, writeAll_bytesBuffer]
  simp only [String.empty_append]
  exact ⟨writeAll_partialOutput w _ s, writeAll_partialOutput w _ s⟩

/-- C19 (witness): the nesting example and a string expression at indent 1 on a sink that
fails its second call, against a buffer: two calls are made and the bytes of the first are
accepted. -/
theorem partial_output_prefix_witness :
    (∀ (x : String) (p : String), ((bytesBuffer.Write x p).2 : Option Unit) = none) ∧
    (0 : Int) ≤ 1 ∧
    (nestingExample.Write (recording (failingAt 1)) (0, [])).1.2.map Prod.fst
      = ["", "\x7b% package templ %\x7d"] ∧
    (Node.Write (recording (failingAt 1)) (0, []) 1
      (Node.StringExpression (expr "x"))).1.2.map Prod.fst = ["\t", "\x7b%= x %\x7d"] ∧
    accepted (Node.Write (recording (failingAt 1)) (0, []) 1
      (Node.StringExpression (expr "x"))).1.2 = "\t" ∧
    (((nestingExample.Write (recording (failingAt 1)) (0, [])).1.2.map Prod.fst
        <+: (nestingExample.Write (recording bytesBuffer) ("", [])).1.2.map Prod.fst ∧
      (accepted (nestingExample.Write (recording (failingAt 1)) (0, [])).1.2).data
        <+: (nestingExample.Write bytesBuffer "").1.data) ∧
    ((Node.Write (recording (failingAt 1)) (0, []) 1
          (Node.StringExpression (expr "x"))).1.2.map Prod.fst
        <+: (Node.Write (recording bytesBuffer) ("", []) 1
          (Node.StringExpression (expr "x"))).1.2.map Prod.fst ∧
      (accepted (Node.Write (recording (failingAt 1)) (0, []) 1
          (Node.StringExpression (expr "x"))).1.2).data
        <+: (Node.Write bytesBuffer "" 1 (Node.StringExpression (expr "x"))).1.data)) :=
  ⟨fun _ _ => rfl, by decide, by decide, by decide, by decide,
    partial_output_prefix (failingAt 1) 0 bytesBuffer "" (fun _ _ => rfl) nestingExample
      (Node.StringExpression (expr "x")) 1 (by decide)⟩

/-- C20: at a starting indent `n ≥ 0`, and for `TemplateFile.Write`, no run on any sink ends
in the panic of `strings.Repeat` on a negative count; and an if, a switch, a for and a block
element with children write their closing marker after the same `n` tabs as their opening
marker. -/
theorem indent_never_negative {σ ε : Type} (w : Writer σ ε) (s : σ) (tf : TemplateFile)
    (node : Node) (n : Nat) (e : Expression) (thenNodes elseNodes dflt body children : List Node)
    (cases : List CaseExpression) (name : String) (attrs : List Attribute)
    (hb : isBlockElement name = true) (hc : children ≠ []) :
    (tf.Write w s).2 ≠ Outcome.panic ∧
    (Node.Write w s (n : Int) node).2 ≠ Outcome.panic ∧
    (∃ mid, Node.calls (n : Int) (Node.IfExpression e thenNodes elseNodes)
      = [copies "\t" n, "\x7b% if " ++ e.Value ++ " %\x7d\n"] ++ mid
        ++ [copies "\t" n, "\x7b% endif %\x7d\n"]) ∧
    (∃ mid, Node.calls (n : Int) (Node.SwitchExpression e cases dflt)
      = [copies "\t" n, "\x7b% switch " ++ e.Value ++ " %\x7d\n"] ++ mid
        ++ [copies "\t" n, "\x7b% endswitch %\x7d\n"]) ∧
    (∃ mid, Node.calls (n : Int) (Node.ForExpression e body)
      = [copies "\t" n, "\x7b% for " ++ e.Value ++ " %\x7d\n"] ++ mid
        ++ [copies "\t" n, "\x7b% endfor %\x7d\n"]) ∧
    (∃ mid, Node.calls (n : Int) (Node.Element name attrs children)
      = ["\n", copies "\t" n, "<" ++ name] ++ mid
        ++ ["\n", copies "\t" n, "</" ++ name ++ ">"]) := by
  have h0 : (0 : Int) ≤ (n : Int) := Int.ofNat_nonneg n
  have ht : tabs (n : Int) = copies "\t" n := by simp [tabs]
  refine ⟨?_, ?_, ?_, ?_, ?_, ?_⟩
  · rw [templateFileWrite_eq_writeAll]
    exact writeAll_ne_panic _ _ _
  · rw [nodeWrite_eq_writeAll _ _ _ _ h0]
    exact writeAll_ne_panic _ _ _
  · rw [calls_eq_writes _ h0]
    refine ⟨nodesWrites ((n : Int) + 1) thenNodes ++ (if elseNodes.length > 0 then
      indentWrites (n : Int) "\x7b% else %\x7d\n" ++ nodesWrites ((n : Int) + 1) elseNodes
      else []), ?_⟩
    simp only [Node.writes, indentWrites, ht, List.append_assoc]
  · rw [calls_eq_writes _ h0]
    refine ⟨casesWrites ((n : Int) + 1) cases ++ (if dflt.length > 0 then
      indentWrites ((n : Int) + 1) "\x7b% default %\x7d\n"
      ++ (nodesWrites ((n : Int) + 1 + 1) dflt
      ++ indentWrites ((n : Int) + 1) "\x7b% enddefault %\x7d\n") else []), ?_⟩
    simp only [Node.writes, indentWrites, ht, List.append_assoc]
  · rw [calls_eq_writes _ h0]
    refine ⟨nodesWrites ((n : Int) + 1) body, ?_⟩
    simp only [Node.writes, indentWrites, ht, List.append_assoc]
  · rw [calls_eq_writes _ h0]
    refine ⟨attributesWrites attrs ++ [">\n"] ++ nodesWrites ((n : Int) + 1) children, ?_⟩
    have hl : ¬ children.length = 0 := by
      intro h
      exact hc (List.length_eq_zero.mp h)
    simp [Node.writes, indentWrites, ht, hb, hl]

/-- C20 (witness): a `div` with one child and the nesting example on a buffer at indent 1;
the calls of the `div`; and the panic the claim excludes, reached from indent -1. -/
theorem indent_never_negative_witness :
    isBlockElement "div" = true ∧ [Node.StringExpression (expr "x")] ≠ [] ∧
    Node.calls 1 (Node.Element "div" [] [Node.StringExpression (expr "x")])
      = ["\n", "\t", "<div", ">\n", "\t\t", "\x7b%= x %\x7d", "\n", "\t", "</div>"] ∧
    Node.Write bytesBuffer "" (-1) (Node.StringExpression (expr "x"))
      = ("", Outcome.panic) ∧
    ((nestingExample.Write bytesBuffer "").2 ≠ Outcome.panic ∧
    (Node.Write bytesBuffer "" ((1 : Nat) : Int)
      (Node.StringExpression (expr "x"))).2 ≠ Outcome.panic ∧
    (∃ mid, Node.calls ((1 : Nat) : Int) (Node.IfExpression (expr "c") [] [])
      = [copies "\t" 1, "\x7b% if " ++ (expr "c").Value ++ " %\x7d\n"] ++ mid
        ++ [copies "\t" 1, "\x7b% endif %\x7d\n"]) ∧
    (∃ mid, Node.calls ((1 : Nat) : Int) (Node.SwitchExpression (expr "c") [] [])
      = [copies "\t" 1, "\x7b% switch " ++ (expr "c").Value ++ " %\x7d\n"] ++ mid
        ++ [copies "\t" 1, "\x7b% endswitch %\x7d\n"]) ∧
    (∃ mid, Node.calls ((1 : Nat) : Int)
        (Node.ForExpression (expr "c") [])
      = [copies "\t" 1, "\x7b% for " ++ (expr "c").Value ++ " %\x7d\n"] ++ mid
        ++ [copies "\t" 1, "\x7b% endfor %\x7d\n"]) ∧
    (∃ mid, Node.calls ((1 : Nat) : Int)
        (Node.Element "div" [] [Node.StringExpression (expr "x")])
      = ["\n", copies "\t" 1, "<" ++ "div"] ++ mid
        ++ ["\n", copies "\t" 1, "</" ++ "div" ++ ">"])) :=
  ⟨by decide, by simp, by decide, by decide,
    indent_never_negative bytesBuffer "" nestingExample (Node.StringExpression (expr "x")) 1
      (expr "c") [] [] [] [] [Node.StringExpression (expr "x")] [] "div" []
      (by decide) (by simp)⟩

end Templ
